import Mathlib

/-!
Verification of the eGet crawler/scraper core against its specification.

Each section shallowly embeds one component of the source tree:

* `QueueManager` (src/services/crawler/queue_manager.py)
* `CacheService._generate_cache_key` (src/services/cache/cache_service.py)
* `WebScraper.scrape` and the cache lookup (src/services/scraper/scraper.py,
  src/services/cache/cache_service.py)
* `BrowserPool` (src/services/scraper/scraper.py)
* `EnhancedBotDetectionHandler.detect_bot_protection` (src/services/scraper/scraper.py)
* `ContentExtractor` cleaning and markdown conversion (src/services/scraper/scraper.py)
* `LinkExtractor` (src/services/crawler/link_extractor.py)

Python dictionaries, sets and queues are modelled with association lists,
`Finset` and `List`; machine-level details (Redis, Selenium, BeautifulSoup,
html2text, the regex engine) are modelled at their interface, as explained at
each definition.
-/

set_option maxHeartbeats 1000000

namespace EGet

/-! ### QueueManager (src/services/crawler/queue_manager.py)

State of one `QueueManager`: the `asyncio.Queue` of URLs (front of the queue
at the head of the list), the `seen_urls` and `in_progress` sets, the
`url_depths` dictionary and the limits taken from the `CrawlerRequest`. -/

structure QMState where
  maxDepth : Nat
  maxPages : Nat
  queue : List String
  seenUrls : Finset String
  inProgress : Finset String
  urlDepths : String → Option Nat

/-- `QueueManager.add_url(url, depth, parent_url)`: under the lock, admit iff
the URL is unseen, `depth <= max_depth` and `len(seen_urls) < max_pages`; on
admission add to `seen_urls`, record the depth, and put the URL on the queue.
The `parent_url` argument is accepted and ignored, exactly as in the source.
Returns the new state and the boolean result. -/
def addUrl (s : QMState) (url : String) (depth : Nat) (_parentUrl : Option String) :
    QMState × Bool :=
  if url ∉ s.seenUrls ∧ depth ≤ s.maxDepth ∧ s.seenUrls.card < s.maxPages then
    ({ s with
        seenUrls := insert url s.seenUrls
        urlDepths := fun u => if u = url then some depth else s.urlDepths u
        queue := s.queue ++ [url] }, true)
  else
    (s, false)

/-- Python truthiness of the `asyncio.Queue` object stored in `self.queue`:
`asyncio.Queue` defines neither `__bool__` nor `__len__`, so the object is
truthy no matter how many items it holds. -/
def asyncioQueueTruthy (_q : List String) : Bool := true

/-- `QueueManager.is_complete`: the literal `not self.queue and not
self.in_progress`, where `self.queue` is an `asyncio.Queue` object and
`self.in_progress` is a Python set. -/
def isComplete (s : QMState) : Bool :=
  !asyncioQueueTruthy s.queue && decide (s.inProgress = ∅)

/-- `is_done` as the spec words it: queue empty AND `in_progress` empty. Used
to exhibit the divergence between the source and the spec. -/
def isDoneSpec (s : QMState) : Bool :=
  s.queue.isEmpty && decide (s.inProgress = ∅)

/-- A frontier state with an empty queue and an empty in-progress set. -/
def qmDone : QMState :=
  { maxDepth := 3, maxPages := 10, queue := [], seenUrls := ∅, inProgress := ∅,
    urlDepths := fun _ => none }

/-- Claim C2: the claim states that `is_complete` is true iff the queue holds
no URLs and `in_progress` is empty.  The code never returns true: `not
self.queue` tests the truthiness of the `asyncio.Queue` object itself, which
is always truthy, so `is_complete` is `False` even on a finished frontier.
The spec's `is_done` would be true there. -/
theorem isComplete_never_true :
    (∀ s : QMState, isComplete s = false) ∧
      isComplete qmDone = false ∧ isDoneSpec qmDone = true := by
  refine ⟨fun s => rfl, rfl, by decide⟩

/-- Claim C5: `add_url` admits iff the URL is unseen, the depth is within
`max_depth` and the seen set is below `max_pages`; on admission the URL is
added to `seen_urls`, its depth recorded and it is appended to the queue; on
rejection the state is unchanged; and a second identical call after a first
one changes nothing and returns `False`. -/
theorem addUrl_spec (s : QMState) (url : String) (depth : Nat)
    (parent : Option String) :
    ((addUrl s url depth parent).2 = true ↔
      url ∉ s.seenUrls ∧ depth ≤ s.maxDepth ∧ s.seenUrls.card < s.maxPages) ∧
    ((addUrl s url depth parent).2 = true →
      (addUrl s url depth parent).1 =
        { s with
            seenUrls := insert url s.seenUrls
            urlDepths := fun u => if u = url then some depth else s.urlDepths u
            queue := s.queue ++ [url] }) ∧
    ((addUrl s url depth parent).2 = false → (addUrl s url depth parent).1 = s) ∧
    addUrl (addUrl s url depth parent).1 url depth parent =
      ((addUrl s url depth parent).1, false) := by
  by_cases h : url ∉ s.seenUrls ∧ depth ≤ s.maxDepth ∧ s.seenUrls.card < s.maxPages
  · refine ⟨by simp [addUrl, h], fun _ => by simp [addUrl, h], ?_, ?_⟩
    · intro hfalse
      exact absurd (by simp [addUrl, h] : (addUrl s url depth parent).2 = true)
        (by simp [hfalse])
    · have h1 : (addUrl s url depth parent).1 =
          { s with
              seenUrls := insert url s.seenUrls
              urlDepths := fun u => if u = url then some depth else s.urlDepths u
              queue := s.queue ++ [url] } := by simp [addUrl, h]
      rw [h1]
      have hmem : url ∈ insert url s.seenUrls := Finset.mem_insert_self url s.seenUrls
      simp [addUrl, hmem]
  · refine ⟨by simp [addUrl, h], ?_, fun _ => by simp [addUrl, h], ?_⟩
    · intro htrue
      exact absurd (by simp [addUrl, h] : (addUrl s url depth parent).2 = false)
        (by simp [htrue])
    · have h1 : (addUrl s url depth parent).1 = s := by simp [addUrl, h]
      rw [h1]
      simp [addUrl, h]

/-! ### Cache key generation (src/services/cache/cache_service.py)

`CacheService._generate_cache_key(url, options)` builds the dictionary of the
five output-affecting options, serializes it with `json.dumps(...,
sort_keys=True)`, joins it to the URL with `|` and returns
`"scrape:" + sha256(key_string.encode()).hexdigest()`.  Option values are
modelled by `PyValue` (the JSON-serializable Python values the scraper
passes); the dictionary by an association list where the first binding for a
key wins, as for a Python `dict` read through `.get`. -/

inductive PyValue where
  | none
  | bool (b : Bool)
  | int (n : Int)
  | str (s : String)
deriving DecidableEq

abbrev ScrapeOpts := List (String × PyValue)

/-- `options.get(k)`: the stored value, or Python `None` rendered as
`Option.none` when the key is absent. -/
def optGet (o : ScrapeOpts) (k : String) : Option PyValue :=
  (o.find? (fun p => p.1 == k)).map (fun p => p.2)

/-- `options.get(k, d)`: a stored value wins, even when it is Python `None`. -/
def optGetD (o : ScrapeOpts) (k : String) (d : PyValue) : PyValue :=
  (optGet o k).getD d

/-- Lower-case hexadecimal digit for a value below 16, as Python renders it. -/
def hexDigitChar (n : Nat) : Char :=
  if n < 10 then Char.ofNat (48 + n) else Char.ofNat (87 + n)

/-- Four hex digits of a 16-bit code unit, for `\uXXXX` escapes. -/
def u16hex (n : Nat) : String :=
  ⟨[hexDigitChar (n / 4096 % 16), hexDigitChar (n / 256 % 16),
    hexDigitChar (n / 16 % 16), hexDigitChar (n % 16)]⟩

/-- One character of a JSON string as `json.dumps` emits it with the default
`ensure_ascii=True`: the two-character escapes, `\uXXXX` for other control or
non-ASCII characters (surrogate pairs above the BMP), else the character. -/
def jsonEscapeChar (c : Char) : String :=
  if c = '"' then "\\\""
  else if c = '\\' then "\\\\"
  else if c = '\n' then "\\n"
  else if c = '\r' then "\\r"
  else if c = '\t' then "\\t"
  else if c.toNat = 8 then "\\b"
  else if c.toNat = 12 then "\\f"
  else if c.toNat < 32 ∨ 126 < c.toNat then
    if c.toNat < 65536 then "\\u" ++ u16hex c.toNat
    else "\\u" ++ u16hex (55296 + (c.toNat - 65536) / 1024) ++
         "\\u" ++ u16hex (56320 + (c.toNat - 65536) % 1024)
  else String.singleton c

def jsonOfString (s : String) : String :=
  "\"" ++ String.join (s.data.map jsonEscapeChar) ++ "\""

def jsonOfValue : PyValue → String
  | .none => "null"
  | .bool true => "true"
  | .bool false => "false"
  | .int n => toString n
  | .str s => jsonOfString s

/-- `json.dumps(relevant_options, sort_keys=True)` for the dictionary built in
`_generate_cache_key`: the five keys in sorted order with the default
`", "`/`": "` separators, each value read from `options` with the source's
defaults. -/
def relevantOptionsJson (options : ScrapeOpts) : String :=
  "\x7b\"includeRawHtml\": " ++
    jsonOfValue (optGetD options "include_raw_html" (.bool false)) ++
  ", \"includeScreenshot\": " ++
    jsonOfValue (optGetD options "include_screenshot" (.bool false)) ++
  ", \"mobile\": " ++ jsonOfValue (optGetD options "mobile" (.bool false)) ++
  ", \"onlyMainContent\": " ++
    jsonOfValue (optGetD options "only_main" (.bool true)) ++
  ", \"waitFor\": " ++
    jsonOfValue (optGetD options "wait_for_selector" .none) ++ "\x7d"

/-! SHA-256 over byte lists, with 32-bit words as naturals reduced mod 2^32;
`hashlib.sha256` is the reference. -/

def w32 (n : Nat) : Nat := n % 4294967296

def rotr32 (k x : Nat) : Nat := w32 (x / 2 ^ k + x % 2 ^ k * 2 ^ (32 - k))

def shr32 (k x : Nat) : Nat := x / 2 ^ k

def not32 (x : Nat) : Nat := 4294967295 - w32 x

def shaCh (x y z : Nat) : Nat := (x &&& y) ^^^ (not32 x &&& z)

def shaMaj (x y z : Nat) : Nat := (x &&& y) ^^^ (x &&& z) ^^^ (y &&& z)

def bsig0 (x : Nat) : Nat := rotr32 2 x ^^^ rotr32 13 x ^^^ rotr32 22 x

def bsig1 (x : Nat) : Nat := rotr32 6 x ^^^ rotr32 11 x ^^^ rotr32 25 x

def ssig0 (x : Nat) : Nat := rotr32 7 x ^^^ rotr32 18 x ^^^ shr32 3 x

def ssig1 (x : Nat) : Nat := rotr32 17 x ^^^ rotr32 19 x ^^^ shr32 10 x

def sha256K : List Nat :=
  [1116352408, 1899447441, 3049323471, 3921009573, 961987163, 1508970993,
   2453635748, 2870763221, 3624381080, 310598401, 607225278, 1426881987,
   1925078388, 2162078206, 2614888103, 3248222580, 3835390401, 4022224774,
   264347078, 604807628, 770255983, 1249150122, 1555081692, 1996064986,
   2554220882, 2821834349, 2952996808, 3210313671, 3336571891, 3584528711,
   113926993, 338241895, 666307205, 773529912, 1294757372, 1396182291,
   1695183700, 1986661051, 2177026350, 2456956037, 2730485921, 2820302411,
   3259730800, 3345764771, 3516065817, 3600352804, 4094571909, 275423344,
   430227734, 506948616, 659060556, 883997877, 958139571, 1322822218,
   1537002063, 1747873779, 1955562222, 2024104815, 2227730452, 2361852424,
   2428436474, 2756734187, 3204031479, 3329325298]

structure Hash8 where
  h0 : Nat
  h1 : Nat
  h2 : Nat
  h3 : Nat
  h4 : Nat
  h5 : Nat
  h6 : Nat
  h7 : Nat

def sha256init : Hash8 :=
  ⟨1779033703, 3144134277, 1013904242, 2773480762,
   1359893119, 2600822924, 528734635, 1541459225⟩

def shaRound (st : Hash8) (ki wi : Nat) : Hash8 :=
  let t1 := w32 (st.h7 + bsig1 st.h4 + shaCh st.h4 st.h5 st.h6 + ki + wi)
  let t2 := w32 (bsig0 st.h0 + shaMaj st.h0 st.h1 st.h2)
  ⟨w32 (t1 + t2), st.h0, st.h1, st.h2, w32 (st.h3 + t1), st.h4, st.h5, st.h6⟩

def bytesToWords : List Nat → List Nat
  | b0 :: b1 :: b2 :: b3 :: rest =>
      (b0 * 16777216 + b1 * 65536 + b2 * 256 + b3) :: bytesToWords rest
  | _ => []

def scheduleStep (ws : List Nat) : List Nat :=
  let t := ws.length
  ws ++ [w32 (ssig1 (ws.getD (t - 2) 0) + ws.getD (t - 7) 0 +
              ssig0 (ws.getD (t - 15) 0) + ws.getD (t - 16) 0)]

def msgSchedule (ws : List Nat) : List Nat :=
  (List.range 48).foldl (fun acc _ => scheduleStep acc) ws

def processBlock (st : Hash8) (block : List Nat) : Hash8 :=
  let ws := msgSchedule (bytesToWords block)
  let f := (sha256K.zip ws).foldl (fun s p => shaRound s p.1 p.2) st
  ⟨w32 (st.h0 + f.h0), w32 (st.h1 + f.h1), w32 (st.h2 + f.h2), w32 (st.h3 + f.h3),
   w32 (st.h4 + f.h4), w32 (st.h5 + f.h5), w32 (st.h6 + f.h6), w32 (st.h7 + f.h7)⟩

/-- Eight big-endian length bytes of the bit length, closing the padding. -/
def be64 (n : Nat) : List Nat :=
  [n / 72057594037927936 % 256, n / 281474976710656 % 256,
   n / 1099511627776 % 256, n / 4294967296 % 256, n / 16777216 % 256,
   n / 65536 % 256, n / 256 % 256, n % 256]

def sha256Pad (msg : List Nat) : List Nat :=
  msg ++ 128 :: (List.replicate ((119 - msg.length % 64) % 64) 0 ++ be64 (8 * msg.length))

def chunks64 (l : List Nat) : List (List Nat) :=
  if h : l = [] then [] else l.take 64 :: chunks64 (l.drop 64)
termination_by l.length
decreasing_by
  have hl : 0 < l.length := List.length_pos.mpr h
  simp only [List.length_drop]
  omega

def sha256 (msg : List Nat) : Hash8 :=
  (chunks64 (sha256Pad msg)).foldl processBlock sha256init

def be32bytes (n : Nat) : List Nat :=
  [n / 16777216 % 256, n / 65536 % 256, n / 256 % 256, n % 256]

def sha256Bytes (msg : List Nat) : List Nat :=
  let h := sha256 msg
  be32bytes h.h0 ++ be32bytes h.h1 ++ be32bytes h.h2 ++ be32bytes h.h3 ++
  be32bytes h.h4 ++ be32bytes h.h5 ++ be32bytes h.h6 ++ be32bytes h.h7

/-- `str.encode()`: UTF-8 bytes of the string. -/
def utf8Encode (s : String) : List Nat :=
  s.data.flatMap (fun c =>
    let n := c.toNat
    if n < 128 then [n]
    else if n < 2048 then [192 + n / 64, 128 + n % 64]
    else if n < 65536 then [224 + n / 4096, 128 + n / 64 % 64, 128 + n % 64]
    else [240 + n / 262144, 128 + n / 4096 % 64, 128 + n / 64 % 64, 128 + n % 64])

def hexPair (b : Nat) : List Char :=
  [hexDigitChar (b / 16 % 16), hexDigitChar (b % 16)]

/-- `.hexdigest()`: two lower-case hex digits per byte. -/
def hexDigest (bs : List Nat) : String := ⟨bs.flatMap hexPair⟩

def sha256HexDigest (s : String) : String := hexDigest (sha256Bytes (utf8Encode s))

/-- `CacheService._generate_cache_key`. -/
def generateCacheKey (url : String) (options : ScrapeOpts) : String :=
  "scrape:" ++ sha256HexDigest (url ++ "|" ++ relevantOptionsJson options)

theorem sha256Bytes_length (m : List Nat) : (sha256Bytes m).length = 32 := rfl

theorem hexPair_digest_length (bs : List Nat) :
    (bs.flatMap hexPair).length = 2 * bs.length := by
  induction bs with
  | nil => rfl
  | cons b t ih =>
      show (hexPair b ++ t.flatMap hexPair).length = 2 * (b :: t).length
      rw [List.length_append, ih]
      simp [hexPair]
      omega

theorem hexDigitChar_mem_alphabet (n : Nat) (h : n < 16) :
    hexDigitChar n ∈ ("0123456789abcdef").data := by
  interval_cases n <;> decide

theorem hexPair_digest_mem (bs : List Nat) (c : Char)
    (hc : c ∈ bs.flatMap hexPair) : c ∈ ("0123456789abcdef").data := by
  induction bs with
  | nil => cases hc
  | cons b t ih =>
      rw [show (b :: t).flatMap hexPair = hexPair b ++ t.flatMap hexPair from rfl,
          List.mem_append] at hc
      rcases hc with hc | hc
      · simp [hexPair] at hc
        rcases hc with hc | hc
        · exact hc ▸ hexDigitChar_mem_alphabet _ (Nat.mod_lt _ (by norm_num))
        · exact hc ▸ hexDigitChar_mem_alphabet _ (Nat.mod_lt _ (by norm_num))
      · exact ih hc

/-- Claim C1: the cache key depends only on the URL and the five
output-affecting options (`only_main`, `wait_for_selector`, `mobile`,
`include_screenshot`, `include_raw_html`); any two option dictionaries that
agree on those five keys produce the same key, and the key is always
`scrape:` followed by 64 lower-case hex digits. -/
theorem generateCacheKey_spec (url : String) (o1 o2 : ScrapeOpts)
    (h1 : optGet o1 "only_main" = optGet o2 "only_main")
    (h2 : optGet o1 "wait_for_selector" = optGet o2 "wait_for_selector")
    (h3 : optGet o1 "mobile" = optGet o2 "mobile")
    (h4 : optGet o1 "include_screenshot" = optGet o2 "include_screenshot")
    (h5 : optGet o1 "include_raw_html" = optGet o2 "include_raw_html") :
    generateCacheKey url o1 = generateCacheKey url o2 ∧
    ∃ d : String, generateCacheKey url o1 = "scrape:" ++ d ∧ d.length = 64 ∧
      ∀ c ∈ d.data, c ∈ ("0123456789abcdef").data := by
  have hjson : relevantOptionsJson o1 = relevantOptionsJson o2 := by
    unfold relevantOptionsJson optGetD
    rw [h1, h2, h3, h4, h5]
  refine ⟨by unfold generateCacheKey; rw [hjson],
    ⟨sha256HexDigest (url ++ "|" ++ relevantOptionsJson o1), rfl, ?_, ?_⟩⟩
  · show (hexDigest (sha256Bytes _)).length = 64
    show (List.flatMap _ hexPair).length = 64
    rw [hexPair_digest_length, sha256Bytes_length]
  · intro c hc
    exact hexPair_digest_mem _ c hc

def c1OptsA : ScrapeOpts :=
  [("only_main", .bool true), ("timeout", .int 30), ("cache_ttl", .int 3600)]

def c1OptsB : ScrapeOpts :=
  [("headers", .str "x-test"), ("only_main", .bool true), ("timeout", .int 60),
   ("user_agent", .str "UA")]

/-- Witness for claim C1 at concrete inputs: two dictionaries differing in
`timeout`, `cache_ttl`, `headers` and `user_agent` but agreeing on the five
relevant keys give the same well-formed key. -/
theorem generateCacheKey_spec_witness :
    generateCacheKey "https://example.com/a" c1OptsA =
      generateCacheKey "https://example.com/a" c1OptsB ∧
    ∃ d : String, generateCacheKey "https://example.com/a" c1OptsA =
      "scrape:" ++ d ∧ d.length = 64 ∧ ∀ c ∈ d.data, c ∈ ("0123456789abcdef").data :=
  generateCacheKey_spec "https://example.com/a" c1OptsA c1OptsB
    (by decide) (by decide) (by decide) (by decide) (by decide)

/-! ### The scrape pipeline (src/services/scraper/scraper.py and
src/services/cache/cache_service.py)

`WebScraper.scrape(url, options)` is a function of the cache connection
state, the behaviour of the Redis backend during the call, and the outcome of
the scraping block (`_get_page_content` followed by `_process_page_data`).
The backend and the browser work are external, so they enter the model as
data: `CacheBackend` records whether `aioredis.from_url` would succeed and
what `redis.get` returns or raises for a key, and the scraping block is an
`Except String ScrapeData` whose error is `str(e)` of the raised
exception. -/

structure PageMetadata where
  title : Option String
  description : Option String
  language : Option String
  sourceURL : String
  statusCode : Nat
  error : Option String
deriving DecidableEq

/-- The `data` dictionary of a scrape response.  Fields that C3, C4 and C10
never inspect (links, structured data, ...) are carried as opaque option
strings. -/
structure ScrapeData where
  markdown : Option String
  html : Option String
  rawHtml : Option String
  screenshot : Option String
  links : Option (List String)
  actions : Option (List String)
  metadata : PageMetadata
  llmExtraction : Option String
  warning : Option String
  structuredData : Option String
deriving DecidableEq

/-- The dictionary returned by `WebScraper.scrape`.  `cached = Option.none`
models the absence of the `'cached'` key in the returned dictionary; `some b`
models `'cached': b`. -/
structure ScrapeResult where
  success : Bool
  data : ScrapeData
  cached : Option Bool
deriving DecidableEq

/-- `CacheService` connection state: `connected` iff `self.redis` is set. -/
structure CacheService where
  connected : Bool
deriving DecidableEq

/-- External behaviour of the Redis backend during one call: whether
establishing a connection would succeed, and the backend's response for a
given key — `.error ()` when `redis.get` (or the subsequent `json.loads`)
raises, `.ok Option.none` for a miss, `.ok (some d)` for a hit decoding to
`d`. -/
structure CacheBackend where
  connectOk : Bool
  get : String → Except Unit (Option ScrapeData)

/-- `CacheService.get_cached_result(url, options)`: when `self.redis` is not
set, `connect()` runs first and a failure there is re-raised (it happens
before the `try` block); once connected, the whole lookup is inside
`try/except` and any backend error is swallowed into a miss (`None`).
Returns the decoded result together with the updated connection state. -/
def getCachedResult (beh : CacheBackend) (svc : CacheService) (url : String)
    (options : ScrapeOpts) : Except Unit (Option ScrapeData × CacheService) :=
  if svc.connected then
    match beh.get (generateCacheKey url options) with
    | .error _ => .ok (.none, svc)
    | .ok r => .ok (r, svc)
  else if beh.connectOk then
    match beh.get (generateCacheKey url options) with
    | .error _ => .ok (.none, ⟨true⟩)
    | .ok r => .ok (r, ⟨true⟩)
  else .error ()

/-- Python truthiness of a `PyValue`, for `options.get('bypass_cache')`. -/
def PyValue.truthy : PyValue → Bool
  | .none => false
  | .bool b => b
  | .int n => decide (n ≠ 0)
  | .str s => decide (s ≠ "")

/-- Truthiness of `options.get(k)` (absent key gives `None`, hence false). -/
def optTruthy (o : ScrapeOpts) (k : String) : Bool :=
  ((optGet o k).map PyValue.truthy).getD false

/-- The cache-check step of `scrape`: skipped when no cache service is
configured or `bypass_cache` is truthy; otherwise the result of
`get_cached_result`, whose raised errors the outer `except` of `scrape`
re-raises. -/
def cachePhase (beh : CacheBackend) (svc : Option CacheService) (url : String)
    (options : ScrapeOpts) : Except Unit (Option ScrapeData) :=
  match svc with
  | .none => .ok .none
  | some c =>
    if optTruthy options "bypass_cache" then .ok .none
    else
      match getCachedResult beh c url options with
      | .error e => .error e
      | .ok (r, _) => .ok r

/-- The `data` dictionary built by the inner `except` block of `scrape`. -/
def failureData (url msg : String) : ScrapeData :=
  { markdown := .none, html := .none, rawHtml := .none, screenshot := .none,
    links := .none, actions := .none,
    metadata :=
      { title := .none, description := .none, language := .none,
        sourceURL := url, statusCode := 500, error := some msg },
    llmExtraction := .none, warning := some msg, structuredData := .none }

/-- `WebScraper.scrape`: check the cache (a hit returns `cached=True`); then
run the scraping block — on success return `cached=False` (the cache write
`cache_result` returns a boolean, never raises once the lookup has connected,
and its value is ignored), on any exception return the `success=False`
dictionary built by the inner `except` block.  A raise out of the cache
lookup is re-raised by the outer `except`, modelled by `.error`. -/
def scrape (beh : CacheBackend) (svc : Option CacheService) (url : String)
    (options : ScrapeOpts) (page : Except String ScrapeData) :
    Except Unit ScrapeResult :=
  match cachePhase beh svc url options with
  | .error e => .error e
  | .ok (some cachedData) => .ok ⟨true, cachedData, some true⟩
  | .ok .none =>
    match page with
    | .ok d => .ok ⟨true, d, some false⟩
    | .error e => .ok ⟨false, failureData url e, .none⟩

/-- A sample successful page-processing outcome used in concrete statements. -/
def samplePage : ScrapeData :=
  { markdown := some "# Hello", html := some "<h1>Hello</h1>", rawHtml := .none,
    screenshot := .none, links := some [], actions := .none,
    metadata :=
      { title := some "Hello", description := .none, language := .none,
        sourceURL := "https://example.com/a", statusCode := 200, error := .none },
    llmExtraction := .none, warning := .none, structuredData := .none }

/-- A backend that cannot connect and would raise on every read. -/
def deadBackend : CacheBackend := ⟨false, fun _ => .error ()⟩

/-- Counterexample to claim C3 as stated: with a configured but
not-yet-connected cache service and an unreachable backend, the connection
attempt inside `get_cached_result` raises before the `try` block, and
`scrape` re-raises instead of proceeding uncached. -/
theorem scrape_raises_on_connect_failure :
    scrape deadBackend (some ⟨false⟩) "https://example.com/a" []
      (.ok samplePage) = .error () := rfl

/-- Claim C3 (amended): once the Redis connection is established, a backend
failure during the cache lookup is swallowed into a miss and `scrape` behaves
exactly as if no cache service were configured. -/
theorem scrape_cache_read_error_is_miss (beh : CacheBackend) (svc : CacheService)
    (url : String) (options : ScrapeOpts) (page : Except String ScrapeData)
    (hconn : svc.connected = true)
    (hget : beh.get (generateCacheKey url options) = .error ()) :
    scrape beh (some svc) url options page = scrape beh .none url options page := by
  by_cases hb : optTruthy options "bypass_cache"
  · simp [scrape, cachePhase, hb]
  · simp [scrape, cachePhase, getCachedResult, hb, hconn, hget]

/-- Witness for the amended claim C3: a connected service whose backend read
raises still yields the ordinary uncached scrape result. -/
theorem scrape_cache_read_error_is_miss_witness :
    scrape ⟨true, fun _ => .error ()⟩ (some ⟨true⟩) "https://example.com/a" []
      (.ok samplePage) =
    scrape ⟨true, fun _ => .error ()⟩ .none "https://example.com/a" []
      (.ok samplePage) :=
  scrape_cache_read_error_is_miss ⟨true, fun _ => .error ()⟩ ⟨true⟩
    "https://example.com/a" [] (.ok samplePage) rfl rfl

/-- Claim C4: when the scraping block raises after the cache check reported a
miss, `scrape` returns (does not raise) a `success=False` result whose
metadata block carries the exception text as `error` and status code 500 and
whose `warning` field is set to the same text. -/
theorem scrape_failure_shape (beh : CacheBackend) (svc : Option CacheService)
    (url : String) (options : ScrapeOpts) (e : String)
    (hmiss : cachePhase beh svc url options = .ok .none) :
    scrape beh svc url options (.error e) = .ok ⟨false, failureData url e, .none⟩ ∧
    (failureData url e).metadata.error = some e ∧
    (failureData url e).metadata.statusCode = 500 ∧
    (failureData url e).warning = some e := by
  refine ⟨?_, rfl, rfl, rfl⟩
  unfold scrape
  rw [hmiss]

/-- Witness for claim C4: with no cache service configured, a navigation
failure with message `net::ERR_TIMED_OUT` produces the populated failure
result. -/
theorem scrape_failure_shape_witness :
    scrape deadBackend .none "https://example.com/a" [] (.error "net::ERR_TIMED_OUT") =
      .ok ⟨false, failureData "https://example.com/a" "net::ERR_TIMED_OUT", .none⟩ ∧
    (failureData "https://example.com/a" "net::ERR_TIMED_OUT").metadata.error =
      some "net::ERR_TIMED_OUT" ∧
    (failureData "https://example.com/a" "net::ERR_TIMED_OUT").metadata.statusCode = 500 ∧
    (failureData "https://example.com/a" "net::ERR_TIMED_OUT").warning =
      some "net::ERR_TIMED_OUT" :=
  scrape_failure_shape deadBackend .none "https://example.com/a" []
    "net::ERR_TIMED_OUT" rfl

/-- Claim C10: a returned result (one that is not a re-raise) carries the
`'cached'` key exactly on the success paths — `True` on a cache hit serving
the cached data, `False` on a fresh scrape — while the failure dictionary
carries no `'cached'` key at all. -/
theorem scrape_cached_key_shape (beh : CacheBackend) (svc : Option CacheService)
    (url : String) (options : ScrapeOpts) (page : Except String ScrapeData)
    (r : ScrapeResult) (h : scrape beh svc url options page = .ok r) :
    (r.success = true →
      (cachePhase beh svc url options = .ok (some r.data) ∧ r.cached = some true) ∨
      (cachePhase beh svc url options = .ok .none ∧ r.cached = some false)) ∧
    (r.success = false → r.cached = .none) := by
  unfold scrape at h
  cases hc : cachePhase beh svc url options with
  | error e => rw [hc] at h; cases h
  | ok ro =>
    cases ro with
    | none =>
      rw [hc] at h
      cases page with
      | ok d =>
        simp only [Except.ok.injEq] at h
        subst h
        exact ⟨fun _ => Or.inr ⟨rfl, rfl⟩, fun hfalse => nomatch hfalse⟩
      | error e =>
        simp only [Except.ok.injEq] at h
        subst h
        exact ⟨fun htrue => (nomatch htrue), fun _ => rfl⟩
    | some d =>
      rw [hc] at h
      simp only [Except.ok.injEq] at h
      subst h
      exact ⟨fun _ => Or.inl ⟨rfl, rfl⟩, fun hfalse => nomatch hfalse⟩

/-- Witness for claim C10 at a concrete fresh scrape: the success result
carries `cached=False`, and the failure branch of the conclusion is vacuous. -/
theorem scrape_cached_key_shape_witness :
    ((true : Bool) = true →
      (cachePhase deadBackend .none "https://example.com/a" [] =
        .ok (some samplePage) ∧ (some false : Option Bool) = some true) ∨
      (cachePhase deadBackend .none "https://example.com/a" [] = .ok .none ∧
        (some false : Option Bool) = some false)) ∧
    ((true : Bool) = false → (some false : Option Bool) = .none) :=
  scrape_cached_key_shape deadBackend .none "https://example.com/a" []
    (.ok samplePage) ⟨true, samplePage, some false⟩ rfl

/-! ### BrowserPool (src/services/scraper/scraper.py)

Browsers are identified by handles (naturals); `next` supplies fresh handles
for `webdriver.Chrome(...)` creations.  `available_browsers` is a Python list
used as a stack (`pop()` from the end, `append` to the end): the Lean list
keeps the stack top at the head.  `active_browsers` is a Python set.  The
environment records the outcome of the external calls: the health check for
each handle, whether creating a browser would succeed, and whether
`context.cleanup()` would succeed for a handle. -/

structure BrowserEnv where
  healthy : Nat → Bool
  createOk : Bool
  cleanupOk : Nat → Bool

structure PoolState where
  maxBrowsers : Nat
  available : List Nat
  active : Finset Nat
  next : Nat

inductive PoolError where
  | exhausted
  | createFailed
deriving DecidableEq

/-- The `while self.available_browsers:` loop of `get_browser`: pop until a
healthy browser is found (unhealthy ones are quit, leaving the pool). -/
def popHealthy (healthy : Nat → Bool) : List Nat → Option Nat × List Nat
  | [] => (.none, [])
  | b :: rest => if healthy b then (some b, rest) else popHealthy healthy rest

/-- `BrowserPool.get_browser`: reuse the first healthy available browser,
else create a new one when `len(active) < max_browsers` (a creation failure
is re-raised), else raise `BrowserError("Too many active browsers")`. -/
def getBrowser (env : BrowserEnv) (s : PoolState) : Except PoolError (Nat × PoolState) :=
  match popHealthy env.healthy s.available with
  | (some b, rest) => .ok (b, { s with available := rest, active := insert b s.active })
  | (.none, rest) =>
    if s.active.card < s.maxBrowsers then
      if env.createOk then
        .ok (s.next, { s with available := rest, active := insert s.next s.active,
                              next := s.next + 1 })
      else .error .createFailed
    else .error .exhausted

/-- `BrowserPool.release_browser`: after `context.cleanup()` (a failure there
skips the bookkeeping and only quits the browser), remove the handle from
`active`; re-shelve it when `len(available) < max_browsers` and it is
healthy, else quit it.  A handle that was not in `active` is just quit. -/
def releaseBrowser (env : BrowserEnv) (s : PoolState) (b : Nat) : PoolState :=
  if env.cleanupOk b then
    if b ∈ s.active then
      let s1 := { s with active := s.active.erase b }
      if s1.available.length < s1.maxBrowsers ∧ env.healthy b then
        { s1 with available := b :: s1.available }
      else s1
    else s
  else s

/-- `BrowserPool.cleanup`: quit everything and clear both containers. -/
def poolCleanup (s : PoolState) : PoolState :=
  { s with available := [], active := ∅ }

/-- The pool as `BrowserPool.__init__` leaves it. -/
def initPool (m : Nat) : PoolState :=
  { maxBrowsers := m, available := [], active := ∅, next := 0 }

/-- Pool invariant: no duplicate handles on the shelf, shelf and active set
disjoint (each handle is in at most one), all handles below the freshness
supply, and the pool never holds more than `max_browsers` handles. -/
def PoolInv (s : PoolState) : Prop :=
  s.available.Nodup ∧
  (∀ b ∈ s.available, b ∉ s.active) ∧
  (∀ b ∈ s.available, b < s.next) ∧
  (∀ b ∈ s.active, b < s.next) ∧
  s.available.length + s.active.card ≤ s.maxBrowsers

instance (s : PoolState) : Decidable (PoolInv s) := by
  unfold PoolInv; infer_instance

theorem popHealthy_some_cons (healthy : Nat → Bool) :
    ∀ (l : List Nat) (b : Nat) (rest : List Nat),
      popHealthy healthy l = (some b, rest) → (b :: rest).Sublist l := by
  intro l
  induction l with
  | nil => intro b rest h; cases h
  | cons x xs ih =>
      intro b rest h
      by_cases hx : healthy x
      · simp only [popHealthy, hx, if_true] at h
        cases h
        exact List.Sublist.refl _
      · simp only [popHealthy, hx, if_false, Bool.false_eq_true] at h
        exact (ih b rest h).cons x

theorem popHealthy_none (healthy : Nat → Bool) :
    ∀ (l : List Nat) (rest : List Nat),
      popHealthy healthy l = (.none, rest) → rest = [] := by
  intro l
  induction l with
  | nil => intro rest h; cases h; rfl
  | cons x xs ih =>
      intro rest h
      by_cases hx : healthy x
      · simp only [popHealthy, hx, if_true] at h
        cases h
      · simp only [popHealthy, hx, if_false, Bool.false_eq_true] at h
        exact ih rest h

/-- Claim C6: assuming the pool invariant, every operation preserves it (so a
handle is never in both `available` and `active`, and the pool never holds
more than `max_browsers` handles), the fresh pool satisfies it, and when the
shelf is empty and `active` already holds `max_browsers` handles,
`get_browser` raises the pool-exhausted `BrowserError` rather than creating a
browser. -/
theorem browserPool_invariants (env : BrowserEnv) (s : PoolState) (hs : PoolInv s) :
    (∀ b s', getBrowser env s = .ok (b, s') → PoolInv s') ∧
    (∀ b, PoolInv (releaseBrowser env s b)) ∧
    PoolInv (poolCleanup s) ∧
    PoolInv (initPool s.maxBrowsers) ∧
    (s.available = [] → s.active.card = s.maxBrowsers →
      getBrowser env s = .error .exhausted) := by
  obtain ⟨hnd, hdisj, hbava, hbact, hcard⟩ := hs
  refine ⟨?_, ?_, ?_, ?_, ?_⟩
  · intro b s' hok
    unfold getBrowser at hok
    cases hpop : popHealthy env.healthy s.available with
    | mk ob rest =>
      rw [hpop] at hok
      cases ob with
      | some b0 =>
        simp only [Except.ok.injEq, Prod.mk.injEq] at hok
        obtain ⟨hb0, hs'⟩ := hok
        have hsub : (b0 :: rest).Sublist s.available :=
          popHealthy_some_cons env.healthy s.available b0 rest hpop
        have hsubnd : (b0 :: rest).Nodup := hsub.nodup hnd
        have hrest : rest.Sublist s.available :=
          (List.sublist_cons_self b0 rest).trans hsub
        rw [← hs']
        unfold PoolInv
        dsimp only
        refine ⟨hrest.nodup hnd, ?_, ?_, ?_, ?_⟩
        · intro x hx
          have hxs : x ∈ s.available := hrest.subset hx
          have hxb : x ≠ b0 := fun hxb => (List.nodup_cons.mp hsubnd).1 (hxb ▸ hx)
          simp only [Finset.mem_insert]
          rintro (rfl | hmem)
          · exact hxb rfl
          · exact hdisj x hxs hmem
        · exact fun x hx => hbava x (hrest.subset hx)
        · intro x hx
          rcases Finset.mem_insert.mp hx with rfl | hmem
          · exact hbava x (hsub.subset (List.mem_cons_self _ _))
          · exact hbact x hmem
        · have h1 : rest.length + 1 ≤ s.available.length := by
            have := hsub.length_le
            simpa using this
          have h2 : (insert b0 s.active).card ≤ s.active.card + 1 :=
            Finset.card_insert_le _ _
          omega
      | none =>
        have hrest : rest = [] := popHealthy_none env.healthy s.available rest hpop
        subst hrest
        by_cases hlt : s.active.card < s.maxBrowsers
        · simp only [hlt, if_true] at hok
          by_cases hcr : env.createOk
          · simp only [hcr, if_true, Except.ok.injEq, Prod.mk.injEq] at hok
            obtain ⟨hb0, hs'⟩ := hok
            rw [← hs']
            unfold PoolInv
            dsimp only
            refine ⟨List.nodup_nil, by simp, by simp, ?_, ?_⟩
            · intro x hx
              rcases Finset.mem_insert.mp hx with rfl | hmem
              · omega
              · have := hbact x hmem; omega
            · have h2 : (insert s.next s.active).card ≤ s.active.card + 1 :=
                Finset.card_insert_le _ _
              simp only [List.length_nil]
              omega
          · simp only [hcr, if_false, Bool.false_eq_true] at hok
            cases hok
        · simp only [hlt, if_false] at hok
          cases hok
  · intro b
    unfold releaseBrowser
    by_cases hcl : env.cleanupOk b
    · simp only [hcl, if_true]
      by_cases hb : b ∈ s.active
      · simp only [hb, if_true]
        have herase : (s.active.erase b).card = s.active.card - 1 :=
          Finset.card_erase_of_mem hb
        have hbn : b < s.next := hbact b hb
        have hbav : b ∉ s.available := fun hmem => hdisj b hmem hb
        by_cases hcond : s.available.length < s.maxBrowsers ∧ env.healthy b = true
        · rw [if_pos (by exact_mod_cast hcond)]
          unfold PoolInv
          dsimp only
          refine ⟨List.nodup_cons.mpr ⟨hbav, hnd⟩, ?_, ?_, ?_, ?_⟩
          · intro x hx
            rcases List.mem_cons.mp hx with rfl | hmem
            · exact Finset.not_mem_erase x s.active
            · exact fun hc => hdisj x hmem (Finset.mem_of_mem_erase hc)
          · intro x hx
            rcases List.mem_cons.mp hx with rfl | hmem
            · exact hbn
            · exact hbava x hmem
          · exact fun x hx => hbact x (Finset.mem_of_mem_erase hx)
          · simp only [List.length_cons]
            have h1 : 1 ≤ s.active.card := Finset.card_pos.mpr ⟨b, hb⟩
            omega
        · rw [if_neg (by exact_mod_cast hcond)]
          unfold PoolInv
          dsimp only
          refine ⟨hnd, ?_, hbava, ?_, ?_⟩
          · exact fun x hx hc => hdisj x hx (Finset.mem_of_mem_erase hc)
          · exact fun x hx => hbact x (Finset.mem_of_mem_erase hx)
          · have h2 : (s.active.erase b).card ≤ s.active.card :=
              Finset.card_erase_le
            omega
      · simp only [hb, if_false]
        exact ⟨hnd, hdisj, hbava, hbact, hcard⟩
    · simp only [hcl, if_false, Bool.false_eq_true]
      exact ⟨hnd, hdisj, hbava, hbact, hcard⟩
  · simp [PoolInv, poolCleanup]
  · simp [PoolInv, initPool]
  · intro hav hfull
    unfold getBrowser
    rw [hav]
    simp only [popHealthy]
    rw [hfull]
    simp

/-- Witness for claim C6 at a concrete pool: two browsers on the shelf, one
active, capacity three, with a health check that rejects handle 0. -/
theorem browserPool_invariants_witness :
    (∀ b s', getBrowser ⟨fun n => decide (n ≠ 0), true, fun _ => true⟩
        ⟨3, [1, 0], {2}, 3⟩ = .ok (b, s') → PoolInv s') ∧
    (∀ b, PoolInv (releaseBrowser ⟨fun n => decide (n ≠ 0), true, fun _ => true⟩
        ⟨3, [1, 0], {2}, 3⟩ b)) ∧
    PoolInv (poolCleanup ⟨3, [1, 0], {2}, 3⟩) ∧
    PoolInv (initPool (PoolState.maxBrowsers ⟨3, [1, 0], {2}, 3⟩)) ∧
    ((PoolState.available ⟨3, [1, 0], {2}, 3⟩) = [] →
      (PoolState.active ⟨3, [1, 0], {2}, 3⟩).card =
        PoolState.maxBrowsers ⟨3, [1, 0], {2}, 3⟩ →
      getBrowser ⟨fun n => decide (n ≠ 0), true, fun _ => true⟩
        ⟨3, [1, 0], {2}, 3⟩ = .error .exhausted) :=
  browserPool_invariants ⟨fun n => decide (n ≠ 0), true, fun _ => true⟩
    ⟨3, [1, 0], {2}, 3⟩ (by decide)

/-! ### Bot-protection detection (src/services/scraper/scraper.py)

`EnhancedBotDetectionHandler.detect_bot_protection` observes the rendered
page only through three external predicates: whether
`browser.find_element(By.CSS_SELECTOR, sel)` finds an element, whether
`re.search(pattern, page_source, re.IGNORECASE)` matches, and whether a
phrase occurs in the lower-cased title.  `PageObs` packages those
observations; the selector and pattern rule sets are the source's literals. -/

structure PageObs where
  selFound : String → Bool
  textMatch : String → Bool
  titleHas : String → Bool

def cfChallengeSelectors : List String :=
  ["#challenge-form", "#challenge-running",
   "div[class*=\x27cf-browser-verification\x27]", "#cf-challenge-running",
   ".cf-browser-verification", "#cf-challenge-stage", ".cf-checking-browser",
   ".cf-wrapper"]

def genericChallengeSelectors : List String :=
  ["[class*=\x27captcha\x27]", "[class*=\x27challenge\x27]",
   "[class*=\x27verification\x27]", "[class*=\x27security-check\x27]",
   "iframe[src*=\x27recaptcha\x27]", "iframe[src*=\x27hcaptcha\x27]",
   ".g-recaptcha", ".h-captcha"]

def datadomeSelectors : List String :=
  ["[class*=\x27datadome\x27]", "[id*=\x27datadome\x27]", ".dd-challenge"]

def incapsulaSelectors : List String :=
  ["[class*=\x27incap\x27]", "[id*=\x27incap\x27]", ".incap-challenge"]

def cloudflarePatterns : List String :=
  ["cloudflare", "ray id:", "please wait while we verify",
   "please enable cookies", "please complete the security check",
   "checking your browser", "just a moment", "attention required",
   "cf-browser-verification", "cf-challenge-running"]

def datadomePatterns : List String :=
  ["datadome", "access denied", "blocked by datadome", "captcha.*datadome"]

def incapsulaPatterns : List String :=
  ["incapsula", "incap_ses", "visid_incap", "blocked by incapsula"]

def akamaiPatterns : List String :=
  ["akamai", "ak-bmsc", "akamai.*bot.*manager"]

def genericCaptchaPatterns : List String :=
  ["captcha", "recaptcha", "hcaptcha", "security check", "verify.*human"]

def cfTitlePhrases : List String :=
  ["just a moment", "attention required", "checking your browser"]

/-- Confidence accumulated for one protection system: +20 per found selector,
+15 per matching source pattern, and +25 once when any of the three title
phrases occurs (Cloudflare only). -/
def systemConfidence (obs : PageObs) (name : String)
    (selectors patterns : List String) : Nat :=
  let c1 := selectors.foldl (fun c sel => if obs.selFound sel then c + 20 else c) 0
  let c2 := patterns.foldl (fun c pat => if obs.textMatch pat then c + 15 else c) c1
  if name = "cloudflare" ∧ cfTitlePhrases.any obs.titleHas then c2 + 25 else c2

/-- The `protection_systems` list, in the source's iteration order; Akamai
has no selector list. -/
def protectionSystems : List (String × List String × List String) :=
  [("cloudflare", cfChallengeSelectors, cloudflarePatterns),
   ("datadome", datadomeSelectors, datadomePatterns),
   ("incapsula", incapsulaSelectors, incapsulaPatterns),
   ("akamai", [], akamaiPatterns),
   ("generic_captcha", genericChallengeSelectors, genericCaptchaPatterns)]

/-- The `max_confidence`/`detected_type` accumulation: strictly greater
confidence replaces the current leader. -/
def detectLoop (obs : PageObs) :
    Nat → Option String → List (String × List String × List String) →
    Nat × Option String
  | m, t, [] => (m, t)
  | m, t, (n, sel, pat) :: rest =>
    let c := systemConfidence obs n sel pat
    if c > m then detectLoop obs c (some n) rest else detectLoop obs m t rest

structure DetectionResult where
  detected : Bool
  type : Option String
  confidence : Nat
deriving DecidableEq

/-- `detect_bot_protection`: report a challenge iff the best score exceeds
the threshold 30; below or at the threshold the initial result (no
detection, `type=None`, confidence 0) is returned. -/
def detectBotProtection (obs : PageObs) : DetectionResult :=
  let r := detectLoop obs 0 .none protectionSystems
  if r.1 > 30 then ⟨true, r.2, r.1⟩ else ⟨false, .none, 0⟩

/-- The highest per-system confidence over the five protection systems. -/
def maxConfidence (obs : PageObs) : Nat :=
  protectionSystems.foldl (fun a p => max a (systemConfidence obs p.1 p.2.1 p.2.2)) 0

theorem countScore_foldl (q : String → Bool) (k : Nat) :
    ∀ (l : List String) (c : Nat),
      l.foldl (fun c x => if q x then c + k else c) c = c + k * l.countP q := by
  intro l
  induction l with
  | nil => intro c; simp
  | cons x t ih =>
      intro c
      by_cases hx : q x = true
      · rw [List.foldl_cons, if_pos hx, ih (c + k), List.countP_cons_of_pos q t hx]
        ring
      · rw [List.foldl_cons, if_neg hx, ih c, List.countP_cons_of_neg q t hx]

theorem detectLoop_fst (obs : PageObs) :
    ∀ (l : List (String × List String × List String)) (m : Nat) (t : Option String),
      (detectLoop obs m t l).1 =
        l.foldl (fun a p => max a (systemConfidence obs p.1 p.2.1 p.2.2)) m := by
  intro l
  induction l with
  | nil => intro m t; rfl
  | cons p rest ih =>
      intro m t
      obtain ⟨n, sel, pat⟩ := p
      by_cases hc : systemConfidence obs n sel pat > m
      · simp only [detectLoop, hc, if_true, List.foldl_cons, ih]
        congr 1
        omega
      · simp only [detectLoop, hc, if_false, List.foldl_cons, ih]
        congr 1
        omega

theorem detectLoop_snd (obs : PageObs) :
    ∀ (l : List (String × List String × List String)) (m : Nat) (t : Option String),
      ((detectLoop obs m t l).2 = t ∧ (detectLoop obs m t l).1 = m) ∨
      ∃ p ∈ l, (detectLoop obs m t l).2 = some p.1 ∧
        (detectLoop obs m t l).1 = systemConfidence obs p.1 p.2.1 p.2.2 := by
  intro l
  induction l with
  | nil => intro m t; exact Or.inl ⟨rfl, rfl⟩
  | cons p rest ih =>
      intro m t
      obtain ⟨n, sel, pat⟩ := p
      by_cases hc : systemConfidence obs n sel pat > m
      · simp only [detectLoop, hc, if_true]
        rcases ih (systemConfidence obs n sel pat) (some n) with ⟨h2, h1⟩ | ⟨q, hq, h2, h1⟩
        · exact Or.inr ⟨(n, sel, pat), List.mem_cons_self _ _, h2, h1⟩
        · exact Or.inr ⟨q, List.mem_cons_of_mem _ hq, h2, h1⟩
      · simp only [detectLoop, hc, if_false]
        rcases ih m t with ⟨h2, h1⟩ | ⟨q, hq, h2, h1⟩
        · exact Or.inl ⟨h2, h1⟩
        · exact Or.inr ⟨q, List.mem_cons_of_mem _ hq, h2, h1⟩

/-- Claim C7: each protection family scores 20 per matching CSS selector, 15
per matching text pattern, plus 25 for a Cloudflare title phrase; a challenge
is reported iff the highest family score strictly exceeds 30, in which case
the reported type is a family achieving that highest score; any maximum of 30
or below reports no challenge. -/
theorem detectBotProtection_spec (obs : PageObs) :
    (∀ name sel pat, systemConfidence obs name sel pat =
      20 * sel.countP obs.selFound + 15 * pat.countP obs.textMatch +
      (if name = "cloudflare" ∧ cfTitlePhrases.any obs.titleHas then 25 else 0)) ∧
    ((detectBotProtection obs).detected = true ↔ 30 < maxConfidence obs) ∧
    ((detectBotProtection obs).detected = true →
      (detectBotProtection obs).confidence = maxConfidence obs ∧
      ∃ p ∈ protectionSystems, (detectBotProtection obs).type = some p.1 ∧
        systemConfidence obs p.1 p.2.1 p.2.2 = maxConfidence obs) ∧
    (maxConfidence obs ≤ 30 → (detectBotProtection obs).detected = false) := by
  have hfst : (detectLoop obs 0 .none protectionSystems).1 = maxConfidence obs :=
    detectLoop_fst obs protectionSystems 0 .none
  refine ⟨?_, ?_⟩
  · intro name sel pat
    unfold systemConfidence
    simp only [countScore_foldl]
    split_ifs with hcf
    · omega
    · omega
  · unfold detectBotProtection
    by_cases hgt : (detectLoop obs 0 .none protectionSystems).1 > 30
    · rw [if_pos hgt]
      refine ⟨⟨fun _ => hfst ▸ hgt, fun _ => rfl⟩, ?_, ?_⟩
      · intro _
        refine ⟨hfst, ?_⟩
        rcases detectLoop_snd obs protectionSystems 0 .none with ⟨h2, h1⟩ | ⟨q, hq, h2, h1⟩
        · rw [h1] at hgt
          omega
        · exact ⟨q, hq, h2, by rw [← h1, hfst]⟩
      · intro hle
        rw [hfst] at hgt
        omega
    · rw [if_neg hgt]
      refine ⟨⟨fun hdet => (nomatch hdet), fun hgt2 => ?_⟩, ?_, fun _ => rfl⟩
      · rw [← hfst] at hgt2
        exact absurd hgt2 hgt
      · intro hdet
        exact absurd hdet (by simp)

/-! ### ContentExtractor (src/services/scraper/scraper.py)

The parsed document is a forest of `HNode`s, as BeautifulSoup represents it
after entity decoding: a text node carries the decoded text (so a literal
`&lt;script&gt;` in the HTML arrives as the text `<script>`), an element
carries its tag, attribute pairs and children.  `str(soup)` followed by
re-parsing is the identity on this representation, so the
serialize-and-reparse steps between `_find_main_content`, `_clean_html` and
`_convert_to_markdown_with_images` disappear. -/

inductive HNode where
  | text (s : String)
  | element (tag : String) (attrs : List (String × String)) (children : List HNode)

/-- The `unwanted_tags` list of `_clean_html` (note `'comment'` is a tag name
there, not comment nodes). -/
def unwantedTags : List String := ["script", "style", "iframe", "noscript", "comment"]

def navLikeTags : List String := ["nav", "footer", "header"]

def mainLikeTags : List String := ["main", "article", "section"]

mutual

/-- Whether the subtree rooted at the node (itself included) holds an element
whose tag is in `tags`. -/
def containsTag (tags : List String) : HNode → Bool
  | .text _ => false
  | .element tag _ children => tags.contains tag || containsTagList tags children

def containsTagList (tags : List String) : List HNode → Bool
  | [] => false
  | n :: rest => containsTag tags n || containsTagList tags rest

end

mutual

/-- First pass of `_clean_html`: `element.decompose()` for every element with
a tag in `unwanted_tags` removes the whole subtree. -/
def removeTagsN (tags : List String) : HNode → List HNode
  | .text s => [.text s]
  | .element tag attrs children =>
      if tags.contains tag then []
      else [.element tag attrs (removeTagsL tags children)]

def removeTagsL (tags : List String) : List HNode → List HNode
  | [] => []
  | n :: rest => removeTagsN tags n ++ removeTagsL tags rest

end

mutual

/-- Second pass of `_clean_html`: drop `nav`/`footer`/`header` elements that
have no `main`/`article`/`section` descendant (the `element.find` check looks
at descendants only). -/
def removeNavN : HNode → List HNode
  | .text s => [.text s]
  | .element tag attrs children =>
      if navLikeTags.contains tag && !containsTagList mainLikeTags children then []
      else [.element tag attrs (removeNavL children)]

def removeNavL : List HNode → List HNode
  | [] => []
  | n :: rest => removeNavN n ++ removeNavL rest

end

/-- The attribute whitelist of `_clean_html`, with the `startswith` clauses
for `data-` and `aria-` attributes.  The literal entries `data-*` and
`aria-*` sit in the source's set and are kept. -/
def allowedAttr (a : String) : Bool :=
  ["href", "src", "alt", "title", "class", "id", "data-*", "role", "aria-*",
   "type", "rel", "target"].contains a ||
  a.startsWith "data-" || a.startsWith "aria-"

mutual

/-- Third pass of `_clean_html`: keep only whitelisted attributes. -/
def filterAttrsN : HNode → HNode
  | .text s => .text s
  | .element tag attrs children =>
      .element tag (attrs.filter (fun p => allowedAttr p.1)) (filterAttrsL children)

def filterAttrsL : List HNode → List HNode
  | [] => []
  | n :: rest => filterAttrsN n :: filterAttrsL rest

end

/-- `_clean_html` as applied to a parsed forest: the three passes in source
order. -/
def cleanHtml (l : List HNode) : List HNode :=
  filterAttrsL (removeNavL (removeTagsL unwantedTags l))

mutual

/-- `element.get_text()`: concatenated text of the subtree. -/
def getTextN : HNode → String
  | .text s => s
  | .element _ _ children => getTextL children

def getTextL : List HNode → String
  | [] => ""
  | n :: rest => getTextN n ++ getTextL rest

end

mutual

/-- `soup.find(...)` with a node predicate: first match in document
(preorder) order. -/
def findNode (p : HNode → Bool) : HNode → Option HNode
  | .text s => if p (.text s) then some (.text s) else .none
  | .element tag attrs children =>
      if p (.element tag attrs children) then some (.element tag attrs children)
      else findNodeList p children

def findNodeList (p : HNode → Bool) : List HNode → Option HNode
  | [] => .none
  | n :: rest =>
      match findNode p n with
      | some r => some r
      | .none => findNodeList p rest

end

mutual

/-- `soup.find_all(...)` with a node predicate, in document order. -/
def findAllNode (p : HNode → Bool) : HNode → List HNode
  | .text s => if p (.text s) then [.text s] else []
  | .element tag attrs children =>
      (if p (.element tag attrs children) then [.element tag attrs children] else []) ++
      findAllNodeList p children

def findAllNodeList (p : HNode → Bool) : List HNode → List HNode
  | [] => []
  | n :: rest => findAllNode p n ++ findAllNodeList p rest

end

/-- `pat.isPrefixOf`-based substring test over character lists. -/
def containsSeq (pat : List Char) : List Char → Bool
  | [] => pat.isEmpty
  | c :: rest => pat.isPrefixOf (c :: rest) || containsSeq pat rest

def strContains (s pat : String) : Bool := containsSeq pat.data s.data

/-- `re.compile(r'content|main|article', re.I).search(v)`: the alternation of
three literals, case-insensitively. -/
def idClassRe (v : String) : Bool :=
  strContains v.toLower "content" || strContains v.toLower "main" ||
  strContains v.toLower "article"

def attrVal (attrs : List (String × String)) (k : String) : Option String :=
  (attrs.find? (fun p => p.1 == k)).map (fun p => p.2)

def hasAttrEq (n : HNode) (k v : String) : Bool :=
  match n with
  | .text _ => false
  | .element _ attrs _ => attrVal attrs k == some v

def hasAttrRe (n : HNode) (k : String) : Bool :=
  match n with
  | .text _ => false
  | .element _ attrs _ =>
      match attrVal attrs k with
      | some v => idClassRe v
      | .none => false

def nodeTag : HNode → Option String
  | .text _ => .none
  | .element tag _ _ => some tag

def mbtStep (best : Option HNode) (x : HNode) : Option HNode :=
  match best with
  | .none => some x
  | some b => if (getTextN x).length > (getTextN b).length then some x else some b

/-- Python `max(containers, key=len(get_text))` (first maximum wins), or
`None` on an empty container list, matching the `if containers:` guard. -/
def maxByTextLen (l : List HNode) : Option HNode := l.foldl mbtStep .none

/-- `ContentExtractor._find_main_content`.  The `content_patterns`
dictionaries are expanded into keyword arguments of `soup.find`; `find` has
no `tag` parameter, so the `tag` key lands in `**kwargs` and filters on an
ATTRIBUTE named `tag` — each pattern therefore matches only elements that
literally carry a `tag` attribute.  The fallback takes the `div`/`section`
with the longest text. -/
def findMainContent (roots : List HNode) : Option HNode :=
  match findNodeList (fun n => hasAttrEq n "tag" "main") roots with
  | some e => some e
  | .none =>
  match findNodeList (fun n => hasAttrEq n "tag" "article") roots with
  | some e => some e
  | .none =>
  match findNodeList (fun n => hasAttrEq n "tag" "div" && hasAttrRe n "id") roots with
  | some e => some e
  | .none =>
  match findNodeList (fun n => hasAttrEq n "tag" "div" && hasAttrRe n "class") roots with
  | some e => some e
  | .none =>
  match findNodeList (fun n => hasAttrEq n "tag" "div" && hasAttrEq n "role" "main") roots with
  | some e => some e
  | .none =>
      maxByTextLen
        (findAllNodeList (fun n => nodeTag n == some "div" || nodeTag n == some "section") roots)

def mdAttr (attrs : List (String × String)) (k : String) : String :=
  (attrVal attrs k).getD ""

mutual

/-- Modelled from the external html2text converter as configured in
`ContentExtractor.__init__` (emphasis `*`, strong `**`, links and images
kept): the converter emits the decoded text of text nodes, markdown
decoration around element content, and the `href`/`src`/`alt` attribute
values of links and images; it never emits an HTML tag of its own.  The
trailing regex post-processing pipeline of `_post_process_markdown` only
rewrites whitespace, list markers and code fences, so it is not modelled. -/
def mdNode : HNode → String
  | .text s => s
  | .element tag attrs children =>
      let inner := mdList children
      if tag = "strong" then "**" ++ inner ++ "**"
      else if tag = "em" then "*" ++ inner ++ "*"
      else if tag = "a" then "[" ++ inner ++ "](" ++ mdAttr attrs "href" ++ ")"
      else if tag = "img" then "![" ++ mdAttr attrs "alt" ++ "](" ++ mdAttr attrs "src" ++ ")"
      else inner ++ (if tag = "p" ∨ tag = "div" ∨ tag = "h1" then "\n\n" else "")

def mdList : List HNode → String
  | [] => ""
  | n :: rest => mdNode n ++ mdList rest

end

/-- `ContentExtractor.extract_content`: select the main content when
`only_main` (falling back to the whole soup when none is found), then clean;
the cleaned forest is what the markdown converter receives. -/
def extractContentTree (roots : List HNode) (onlyMain : Bool) : List HNode :=
  let sel :=
    if onlyMain then
      match findMainContent roots with
      | some n => [n]
      | .none => roots
    else roots
  cleanHtml sel

def extractContentMarkdown (roots : List HNode) (onlyMain : Bool) : String :=
  mdList (extractContentTree roots onlyMain)

mutual

/-- No text node and no attribute value in the subtree holds a literal `<`.
In real HTML a `<` inside text or an attribute arrives entity-escaped and is
decoded by the parser, so this is the no-markup-in-text condition. -/
def noLtN : HNode → Bool
  | .text s => !(decide ('<' ∈ s.data))
  | .element _ attrs children =>
      attrs.all (fun p => !(decide ('<' ∈ p.2.data))) && noLtL children

def noLtL : List HNode → Bool
  | [] => true
  | n :: rest => noLtN n && noLtL rest

end

theorem containsTagList_append (tags : List String) (a b : List HNode) :
    containsTagList tags (a ++ b) =
      (containsTagList tags a || containsTagList tags b) := by
  induction a with
  | nil => simp [containsTagList]
  | cons n rest ih => simp [containsTagList, ih, Bool.or_assoc]

theorem noLtL_append (a b : List HNode) :
    noLtL (a ++ b) = (noLtL a && noLtL b) := by
  induction a with
  | nil => simp [noLtL]
  | cons n rest ih => simp [noLtL, ih, Bool.and_assoc]

theorem andE {a b : Bool} (h : (a && b) = true) : a = true ∧ b = true := by
  cases a <;> cases b <;> simp_all

theorem orFalseE {a b : Bool} (h : (a || b) = false) : a = false ∧ b = false := by
  cases a <;> cases b <;> simp_all

theorem neqTrue {b : Bool} (h : ¬ b = true) : b = false := by
  cases b
  · rfl
  · exact absurd rfl h

mutual

theorem removeTagsN_clean (tags : List String) (n : HNode) :
    containsTagList tags (removeTagsN tags n) = false := by
  cases n with
  | text s => rfl
  | element tag attrs children =>
      simp only [removeTagsN]
      by_cases h : tags.contains tag = true
      · rw [if_pos h]
        rfl
      · rw [if_neg h]
        show ((tags.contains tag ||
          containsTagList tags (removeTagsL tags children)) || false) = false
        rw [neqTrue h, removeTagsL_clean tags children]
        rfl

theorem removeTagsL_clean (tags : List String) (l : List HNode) :
    containsTagList tags (removeTagsL tags l) = false := by
  cases l with
  | nil => rfl
  | cons n rest =>
      show containsTagList tags (removeTagsN tags n ++ removeTagsL tags rest) = false
      rw [containsTagList_append, removeTagsN_clean tags n,
          removeTagsL_clean tags rest]
      rfl

end

mutual

theorem removeNavN_clean (tags : List String) (n : HNode)
    (h : containsTag tags n = false) :
    containsTagList tags (removeNavN n) = false := by
  cases n with
  | text s => rfl
  | element tag attrs children =>
      obtain ⟨h1, h2⟩ := orFalseE
        (show (tags.contains tag || containsTagList tags children) = false from h)
      simp only [removeNavN]
      by_cases hnav :
          (navLikeTags.contains tag && !containsTagList mainLikeTags children) = true
      · rw [if_pos hnav]
        rfl
      · rw [if_neg hnav]
        show ((tags.contains tag ||
          containsTagList tags (removeNavL children)) || false) = false
        rw [h1, removeNavL_clean tags children h2]
        rfl

theorem removeNavL_clean (tags : List String) (l : List HNode)
    (h : containsTagList tags l = false) :
    containsTagList tags (removeNavL l) = false := by
  cases l with
  | nil => rfl
  | cons n rest =>
      obtain ⟨h1, h2⟩ := orFalseE
        (show (containsTag tags n || containsTagList tags rest) = false from h)
      show containsTagList tags (removeNavN n ++ removeNavL rest) = false
      rw [containsTagList_append, removeNavN_clean tags n h1,
          removeNavL_clean tags rest h2]
      rfl

end

mutual

theorem filterAttrsN_tags (tags : List String) (n : HNode) :
    containsTag tags (filterAttrsN n) = containsTag tags n := by
  cases n with
  | text s => rfl
  | element tag attrs children =>
      show (tags.contains tag || containsTagList tags (filterAttrsL children)) =
        (tags.contains tag || containsTagList tags children)
      rw [filterAttrsL_tags tags children]

theorem filterAttrsL_tags (tags : List String) (l : List HNode) :
    containsTagList tags (filterAttrsL l) = containsTagList tags l := by
  cases l with
  | nil => rfl
  | cons n rest =>
      show (containsTag tags (filterAttrsN n) ||
        containsTagList tags (filterAttrsL rest)) =
        (containsTag tags n || containsTagList tags rest)
      rw [filterAttrsN_tags tags n, filterAttrsL_tags tags rest]

end

mutual

theorem removeTagsN_noLt (tags : List String) (n : HNode) (h : noLtN n = true) :
    noLtL (removeTagsN tags n) = true := by
  cases n with
  | text s =>
      show (noLtN (.text s) && true) = true
      rw [h]
      rfl
  | element tag attrs children =>
      obtain ⟨h1, h2⟩ := andE (show (attrs.all (fun q => !(decide ('<' ∈ q.2.data))) &&
        noLtL children) = true from h)
      simp only [removeTagsN]
      by_cases htag : tags.contains tag = true
      · rw [if_pos htag]
        rfl
      · rw [if_neg htag]
        show ((attrs.all (fun q => !(decide ('<' ∈ q.2.data))) &&
          noLtL (removeTagsL tags children)) && true) = true
        rw [h1, removeTagsL_noLt tags children h2]
        rfl

theorem removeTagsL_noLt (tags : List String) (l : List HNode) (h : noLtL l = true) :
    noLtL (removeTagsL tags l) = true := by
  cases l with
  | nil => rfl
  | cons n rest =>
      obtain ⟨h1, h2⟩ := andE (show (noLtN n && noLtL rest) = true from h)
      show noLtL (removeTagsN tags n ++ removeTagsL tags rest) = true
      rw [noLtL_append, removeTagsN_noLt tags n h1, removeTagsL_noLt tags rest h2]
      rfl

end

mutual

theorem removeNavN_noLt (n : HNode) (h : noLtN n = true) :
    noLtL (removeNavN n) = true := by
  cases n with
  | text s =>
      show (noLtN (.text s) && true) = true
      rw [h]
      rfl
  | element tag attrs children =>
      obtain ⟨h1, h2⟩ := andE (show (attrs.all (fun q => !(decide ('<' ∈ q.2.data))) &&
        noLtL children) = true from h)
      simp only [removeNavN]
      by_cases hnav :
          (navLikeTags.contains tag && !containsTagList mainLikeTags children) = true
      · rw [if_pos hnav]
        rfl
      · rw [if_neg hnav]
        show ((attrs.all (fun q => !(decide ('<' ∈ q.2.data))) &&
          noLtL (removeNavL children)) && true) = true
        rw [h1, removeNavL_noLt children h2]
        rfl

theorem removeNavL_noLt (l : List HNode) (h : noLtL l = true) :
    noLtL (removeNavL l) = true := by
  cases l with
  | nil => rfl
  | cons n rest =>
      obtain ⟨h1, h2⟩ := andE (show (noLtN n && noLtL rest) = true from h)
      show noLtL (removeNavN n ++ removeNavL rest) = true
      rw [noLtL_append, removeNavN_noLt n h1, removeNavL_noLt rest h2]
      rfl

end

mutual

theorem filterAttrsN_noLt (n : HNode) (h : noLtN n = true) :
    noLtN (filterAttrsN n) = true := by
  cases n with
  | text s => exact h
  | element tag attrs children =>
      obtain ⟨h1, h2⟩ := andE (show (attrs.all (fun q => !(decide ('<' ∈ q.2.data))) &&
        noLtL children) = true from h)
      have hall : (attrs.filter (fun q => allowedAttr q.1)).all
          (fun q => !(decide ('<' ∈ q.2.data))) = true := by
        rw [List.all_eq_true] at h1 ⊢
        intro q hq
        exact h1 q (List.mem_of_mem_filter hq)
      show ((attrs.filter (fun q => allowedAttr q.1)).all
        (fun q => !(decide ('<' ∈ q.2.data))) && noLtL (filterAttrsL children)) = true
      rw [hall, filterAttrsL_noLt children h2]
      rfl

theorem filterAttrsL_noLt (l : List HNode) (h : noLtL l = true) :
    noLtL (filterAttrsL l) = true := by
  cases l with
  | nil => rfl
  | cons n rest =>
      obtain ⟨h1, h2⟩ := andE (show (noLtN n && noLtL rest) = true from h)
      show (noLtN (filterAttrsN n) && noLtL (filterAttrsL rest)) = true
      rw [filterAttrsN_noLt n h1, filterAttrsL_noLt rest h2]
      rfl

end

mutual

theorem findNode_noLt (p : HNode → Bool) (n r : HNode)
    (hf : findNode p n = some r) (h : noLtN n = true) : noLtN r = true := by
  cases n with
  | text s =>
      have hf2 : (if p (.text s) then some (HNode.text s) else Option.none) = some r := hf
      by_cases hp : p (.text s) = true
      · rw [if_pos hp] at hf2
        cases hf2
        exact h
      · rw [if_neg hp] at hf2
        cases hf2
  | element tag attrs children =>
      have hf2 : (if p (.element tag attrs children) then
          some (HNode.element tag attrs children)
        else findNodeList p children) = some r := hf
      by_cases hp : p (.element tag attrs children) = true
      · rw [if_pos hp] at hf2
        cases hf2
        exact h
      · rw [if_neg hp] at hf2
        obtain ⟨h1, h2⟩ := andE (show (attrs.all (fun q => !(decide ('<' ∈ q.2.data))) &&
          noLtL children) = true from h)
        exact findNodeList_noLt p children r hf2 h2

theorem findNodeList_noLt (p : HNode → Bool) (l : List HNode) (r : HNode)
    (hf : findNodeList p l = some r) (h : noLtL l = true) : noLtN r = true := by
  cases l with
  | nil => cases hf
  | cons n rest =>
      obtain ⟨h1, h2⟩ := andE (show (noLtN n && noLtL rest) = true from h)
      cases hfn : findNode p n with
      | some r0 =>
          have hf2 : some r0 = some r := by
            have hstep : findNodeList p (n :: rest) = (match findNode p n with
              | some r1 => some r1
              | Option.none => findNodeList p rest) := rfl
            rw [hstep, hfn] at hf
            exact hf
          cases hf2
          exact findNode_noLt p n _ hfn h1
      | none =>
          have hf2 : findNodeList p rest = some r := by
            have hstep : findNodeList p (n :: rest) = (match findNode p n with
              | some r1 => some r1
              | Option.none => findNodeList p rest) := rfl
            rw [hstep, hfn] at hf
            exact hf
          exact findNodeList_noLt p rest r hf2 h2

end

mutual

theorem findAllNode_noLt (p : HNode → Bool) (n r : HNode)
    (hr : r ∈ findAllNode p n) (h : noLtN n = true) : noLtN r = true := by
  cases n with
  | text s =>
      have hr2 : r ∈ (if p (.text s) then [HNode.text s] else []) := hr
      by_cases hp : p (.text s) = true
      · rw [if_pos hp, List.mem_singleton] at hr2
        exact hr2 ▸ h
      · rw [if_neg hp] at hr2
        exact absurd hr2 (List.not_mem_nil r)
  | element tag attrs children =>
      obtain ⟨h1, h2⟩ := andE (show (attrs.all (fun q => !(decide ('<' ∈ q.2.data))) &&
        noLtL children) = true from h)
      have hr2 : r ∈ ((if p (.element tag attrs children) then
          [HNode.element tag attrs children] else []) ++ findAllNodeList p children) := hr
      rw [List.mem_append] at hr2
      rcases hr2 with hx | hx
      · by_cases hp : p (.element tag attrs children) = true
        · rw [if_pos hp, List.mem_singleton] at hx
          exact hx ▸ h
        · rw [if_neg hp] at hx
          exact absurd hx (List.not_mem_nil r)
      · exact findAllNodeList_noLt p children r hx h2

theorem findAllNodeList_noLt (p : HNode → Bool) (l : List HNode) (r : HNode)
    (hr : r ∈ findAllNodeList p l) (h : noLtL l = true) : noLtN r = true := by
  cases l with
  | nil => exact absurd hr (List.not_mem_nil r)
  | cons n rest =>
      obtain ⟨h1, h2⟩ := andE (show (noLtN n && noLtL rest) = true from h)
      have hr2 : r ∈ (findAllNode p n ++ findAllNodeList p rest) := hr
      rw [List.mem_append] at hr2
      rcases hr2 with hx | hx
      · exact findAllNode_noLt p n r hx h1
      · exact findAllNodeList_noLt p rest r hx h2

end

theorem mbtStep_cases (best : Option HNode) (x : HNode) :
    mbtStep best x = best ∨ mbtStep best x = some x := by
  cases best with
  | none => exact Or.inr rfl
  | some b =>
      unfold mbtStep
      by_cases hgt : (getTextN x).length > (getTextN b).length
      · simp [hgt]
      · simp [hgt]

theorem foldl_mbt_mem :
    ∀ (l : List HNode) (acc : Option HNode) (r : HNode),
      l.foldl mbtStep acc = some r → acc = some r ∨ r ∈ l := by
  intro l
  induction l with
  | nil => intro acc r h; exact Or.inl h
  | cons x rest ih =>
      intro acc r h
      rcases ih (mbtStep acc x) r h with hacc | hmem
      · rcases mbtStep_cases acc x with hc | hc
        · exact Or.inl (hc ▸ hacc)
        · rw [hc] at hacc
          cases hacc
          exact Or.inr (List.mem_cons_self _ _)
      · exact Or.inr (List.mem_cons_of_mem _ hmem)

theorem maxByTextLen_mem (l : List HNode) (r : HNode)
    (h : maxByTextLen l = some r) : r ∈ l := by
  rcases foldl_mbt_mem l .none r h with hacc | hmem
  · cases hacc
  · exact hmem

theorem findMainContent_noLt (roots : List HNode) (r : HNode)
    (hf : findMainContent roots = some r) (h : noLtL roots = true) :
    noLtN r = true := by
  unfold findMainContent at hf
  cases h1 : findNodeList (fun n => hasAttrEq n "tag" "main") roots with
  | some e => rw [h1] at hf; cases hf; exact findNodeList_noLt _ _ _ h1 h
  | none =>
  rw [h1] at hf
  cases h2 : findNodeList (fun n => hasAttrEq n "tag" "article") roots with
  | some e => rw [h2] at hf; cases hf; exact findNodeList_noLt _ _ _ h2 h
  | none =>
  rw [h2] at hf
  cases h3 : findNodeList (fun n => hasAttrEq n "tag" "div" && hasAttrRe n "id") roots with
  | some e => rw [h3] at hf; cases hf; exact findNodeList_noLt _ _ _ h3 h
  | none =>
  rw [h3] at hf
  cases h4 : findNodeList (fun n => hasAttrEq n "tag" "div" && hasAttrRe n "class") roots with
  | some e => rw [h4] at hf; cases hf; exact findNodeList_noLt _ _ _ h4 h
  | none =>
  rw [h4] at hf
  cases h5 : findNodeList (fun n => hasAttrEq n "tag" "div" && hasAttrEq n "role" "main") roots with
  | some e => rw [h5] at hf; cases hf; exact findNodeList_noLt _ _ _ h5 h
  | none =>
  rw [h5] at hf
  exact findAllNodeList_noLt _ roots r (maxByTextLen_mem _ r hf) h

theorem mdAttr_noLt (attrs : List (String × String)) (k : String)
    (h : attrs.all (fun q => !(decide ('<' ∈ q.2.data))) = true) :
    '<' ∉ (mdAttr attrs k).data := by
  unfold mdAttr attrVal
  cases hfind : attrs.find? (fun q => q.1 == k) with
  | none => simp
  | some q =>
      have hq : q ∈ attrs := List.mem_of_find?_eq_some hfind
      have hv := (List.all_eq_true.mp h) q hq
      simp only [Bool.not_eq_eq_eq_not, Bool.not_true, decide_eq_false_iff_not] at hv
      simpa using hv

theorem mem_data_append {c : Char} (a b : String) :
    c ∈ (a ++ b).data ↔ c ∈ a.data ∨ c ∈ b.data := by
  rw [String.data_append, List.mem_append]

mutual

theorem mdNode_noLt (n : HNode) (h : noLtN n = true) : '<' ∉ (mdNode n).data := by
  cases n with
  | text s =>
      have hs : (!(decide ('<' ∈ s.data))) = true := h
      intro hmem
      rw [Bool.not_eq_eq_eq_not, Bool.not_true, decide_eq_false_iff_not] at hs
      exact hs hmem
  | element tag attrs children =>
      obtain ⟨h1, h2⟩ := andE (show (attrs.all (fun q => !(decide ('<' ∈ q.2.data))) &&
        noLtL children) = true from h)
      have hinner : '<' ∉ (mdList children).data := mdList_noLt children h2
      simp only [mdNode]
      split_ifs with hif1 hif2 hif3 hif4 hif5
      · intro hmem
        rw [mem_data_append, mem_data_append] at hmem
        rcases hmem with (hx | hx) | hx
        · exact absurd hx (by decide)
        · exact hinner hx
        · exact absurd hx (by decide)
      · intro hmem
        rw [mem_data_append, mem_data_append] at hmem
        rcases hmem with (hx | hx) | hx
        · exact absurd hx (by decide)
        · exact hinner hx
        · exact absurd hx (by decide)
      · intro hmem
        rw [mem_data_append, mem_data_append, mem_data_append, mem_data_append] at hmem
        rcases hmem with (((hx | hx) | hx) | hx) | hx
        · exact absurd hx (by decide)
        · exact hinner hx
        · exact absurd hx (by decide)
        · exact mdAttr_noLt attrs "href" h1 hx
        · exact absurd hx (by decide)
      · intro hmem
        rw [mem_data_append, mem_data_append, mem_data_append, mem_data_append] at hmem
        rcases hmem with (((hx | hx) | hx) | hx) | hx
        · exact absurd hx (by decide)
        · exact mdAttr_noLt attrs "alt" h1 hx
        · exact absurd hx (by decide)
        · exact mdAttr_noLt attrs "src" h1 hx
        · exact absurd hx (by decide)
      · intro hmem
        rw [mem_data_append] at hmem
        rcases hmem with hx | hx
        · exact hinner hx
        · exact absurd hx (by decide)
      · intro hmem
        rw [mem_data_append] at hmem
        rcases hmem with hx | hx
        · exact hinner hx
        · exact absurd hx (by decide)

theorem mdList_noLt (l : List HNode) (h : noLtL l = true) : '<' ∉ (mdList l).data := by
  cases l with
  | nil => intro hmem; exact absurd hmem (by decide)
  | cons n rest =>
      obtain ⟨h1, h2⟩ := andE (show (noLtN n && noLtL rest) = true from h)
      intro hmem
      rw [show mdList (n :: rest) = mdNode n ++ mdList rest from rfl,
          mem_data_append] at hmem
      rcases hmem with hx | hx
      · exact mdNode_noLt n h1 hx
      · exact mdList_noLt rest h2 hx

end

theorem containsSeq_head (c : Char) (p l : List Char)
    (h : containsSeq (c :: p) l = true) : c ∈ l := by
  induction l with
  | nil => simp [containsSeq, List.isEmpty] at h
  | cons d rest ih =>
      simp only [containsSeq, Bool.or_eq_true] at h
      rcases h with h | h
      · have hpre : ((c == d) && List.isPrefixOf p rest) = true := h
        have hcd : c = d := by
          have := (andE hpre).1
          simpa using this
        exact hcd ▸ List.mem_cons_self _ _
      · exact List.mem_cons_of_mem _ (ih h)

theorem noLt_strContains_tag (s : String) (rest : List Char)
    (hs : '<' ∉ s.data) : containsSeq ('<' :: rest) s.data = false := by
  cases hc : containsSeq ('<' :: rest) s.data with
  | false => rfl
  | true => exact absurd (containsSeq_head '<' rest s.data hc) hs

/-- Claim C9 (amended): the forest handed to the markdown converter by
`extract_content` holds no `script`, `style`, `iframe`, `noscript` (or
`comment`) element — cleaning removes them all — and consequently, whenever
no text node or attribute value of the input holds a literal `<` (in parsed
HTML such a `<` can only come from an entity-escaped text occurrence), the
produced markdown holds no `<script>` and no `<style>` substring. -/
theorem extractContent_clean_spec (roots : List HNode) (onlyMain : Bool)
    (h : noLtL roots = true) :
    containsTagList unwantedTags (extractContentTree roots onlyMain) = false ∧
    strContains (extractContentMarkdown roots onlyMain) "<script>" = false ∧
    strContains (extractContentMarkdown roots onlyMain) "<style>" = false := by
  have hsel : ∀ sel : List HNode, noLtL sel = true →
      containsTagList unwantedTags (cleanHtml sel) = false ∧
      '<' ∉ (mdList (cleanHtml sel)).data := by
    intro sel hs
    have h1 : containsTagList unwantedTags (removeTagsL unwantedTags sel) = false :=
      removeTagsL_clean unwantedTags sel
    have h2 : containsTagList unwantedTags (removeNavL (removeTagsL unwantedTags sel)) = false :=
      removeNavL_clean unwantedTags _ h1
    have h3 : containsTagList unwantedTags (cleanHtml sel) = false := by
      unfold cleanHtml
      rw [filterAttrsL_tags]
      exact h2
    have h4 : noLtL (cleanHtml sel) = true :=
      filterAttrsL_noLt _ (removeNavL_noLt _ (removeTagsL_noLt unwantedTags sel hs))
    exact ⟨h3, mdList_noLt _ h4⟩
  have hselOk : noLtL
      (if onlyMain then
        match findMainContent roots with
        | some n => [n]
        | .none => roots
      else roots) = true := by
    cases onlyMain with
    | false => simpa using h
    | true =>
        simp only [if_true]
        cases hf : findMainContent roots with
        | none => simpa using h
        | some n =>
            have := findMainContent_noLt roots n hf h
            simp [noLtL, this]
  obtain ⟨htags, hmd⟩ := hsel _ hselOk
  refine ⟨htags, ?_, ?_⟩
  · have hd : ("<script>").data = '<' :: ("script>").data := rfl
    unfold strContains
    rw [hd]
    exact noLt_strContains_tag _ _ hmd
  · have hd : ("<style>").data = '<' :: ("style>").data := rfl
    unfold strContains
    rw [hd]
    exact noLt_strContains_tag _ _ hmd

/-- The input exhibiting the counterexample: a page whose visible text is the
escaped string `&lt;script&gt;alert(1)&lt;/script&gt;`, which the parser
decodes into a text node. -/
def c9CexTree : List HNode :=
  [.element "div" [] [.text "<script>alert(1)</script>"]]

/-- Counterexample to claim C9 as stated: the markdown produced by
`extract_content` for that page contains the literal substring `<script>`
(the text survives cleaning untouched, and the converter emits it). -/
theorem extractContent_markdown_cex :
    strContains (extractContentMarkdown c9CexTree true) "<script>" = true := rfl

/-- A page with a real script element and clean text. -/
def c9WitTree : List HNode :=
  [.element "div" [("class", "main")]
    [.element "script" [] [.text "var x = 1"], .text "hello"]]

/-- Witness for the amended claim C9 at a concrete page: the script element
is removed and the markdown carries no tag substring. -/
theorem extractContent_clean_spec_witness :
    containsTagList unwantedTags (extractContentTree c9WitTree true) = false ∧
    strContains (extractContentMarkdown c9WitTree true) "<script>" = false ∧
    strContains (extractContentMarkdown c9WitTree true) "<style>" = false :=
  extractContent_clean_spec c9WitTree true rfl

/-! ### LinkExtractor (src/services/crawler/link_extractor.py)

`LinkExtractor.extract_links(html, base_url)` walks every `<a href>` of the
parsed page, forms `urljoin(base_url, href)`, strips fragment/params/query
with `urlparse(...)._replace(...).geturl()`, and filters by domain, regex
patterns and robots.txt.  BeautifulSoup and `urljoin` are external: the model
receives the joined absolute candidate URL strings.  The compiled regex
patterns and the robots parser are external matchers `String → Bool`.
`urlparse`/`urlunparse` are the cpython `urllib.parse` algorithms, spelled
out over character lists (the WHATWG tab/CR/LF stripping included; the IPv6
bracket `ValueError`, which would make `_normalize_url` return `None`, is
not modelled — no candidate here raises). -/

def urlFilter (l : List Char) : List Char :=
  l.filter (fun c => !(c == '\t' || c == '\r' || c == '\n'))

def isSchemeChar (c : Char) : Bool :=
  c.isAlpha || c.isDigit || c == '+' || c == '-' || c == '.'

/-- `str.lower()` on the ASCII letters (the only characters it is applied to
here, after scheme validation). -/
def asciiLowerChar (c : Char) : Char :=
  if c = 'A' then 'a' else if c = 'B' then 'b' else if c = 'C' then 'c'
  else if c = 'D' then 'd' else if c = 'E' then 'e' else if c = 'F' then 'f'
  else if c = 'G' then 'g' else if c = 'H' then 'h' else if c = 'I' then 'i'
  else if c = 'J' then 'j' else if c = 'K' then 'k' else if c = 'L' then 'l'
  else if c = 'M' then 'm' else if c = 'N' then 'n' else if c = 'O' then 'o'
  else if c = 'P' then 'p' else if c = 'Q' then 'q' else if c = 'R' then 'r'
  else if c = 'S' then 's' else if c = 'T' then 't' else if c = 'U' then 'u'
  else if c = 'V' then 'v' else if c = 'W' then 'w' else if c = 'X' then 'x'
  else if c = 'Y' then 'y' else if c = 'Z' then 'z' else c

/-- Split at the first occurrence of `c`: the part before it, and the part
after it when present. -/
def splitAtFirst (c : Char) (l : List Char) : List Char × Option (List Char) :=
  (l.takeWhile (fun d => !(d == c)),
   match l.dropWhile (fun d => !(d == c)) with
   | [] => Option.none
   | _ :: rest => some rest)

/-- The scheme step of `urlsplit`: the text before the first `:` is taken as
the scheme when it is non-empty, starts with a letter and consists of scheme
characters; it is lower-cased. -/
def schemeSplit (l : List Char) : List Char × List Char :=
  match splitAtFirst ':' l with
  | (_, Option.none) => ([], l)
  | (pre, some rest) =>
    match pre with
    | [] => ([], l)
    | c :: cs =>
        if c.isAlpha && (c :: cs).all isSchemeChar then
          ((c :: cs).map asciiLowerChar, rest)
        else ([], l)

def netStop (c : Char) : Bool := !(c == '/' || c == '?' || c == '#')

/-- The netloc step: after a leading `//`, the netloc runs to the next `/`,
`?` or `#`. -/
def netlocSplit (l : List Char) : List Char × List Char :=
  if l.take 2 = ['/', '/'] then
    ((l.drop 2).takeWhile netStop, (l.drop 2).dropWhile netStop)
  else ([], l)

/-- `url.split('#', 1)`: remainder and fragment. -/
def fragmentSplit (l : List Char) : List Char × List Char :=
  match splitAtFirst '#' l with
  | (_, Option.none) => (l, [])
  | (pre, some rest) => (pre, rest)

/-- `url.split('?', 1)`: remainder and query. -/
def querySplit (l : List Char) : List Char × List Char :=
  match splitAtFirst '?' l with
  | (_, Option.none) => (l, [])
  | (pre, some rest) => (pre, rest)

/-- The text after the last `/` (the whole text when there is none). -/
def afterLastSlash (l : List Char) : List Char :=
  (l.reverse.takeWhile (fun c => !(c == '/'))).reverse

/-- The text up to and including the last `/`. -/
def upToLastSlash (l : List Char) : List Char :=
  (l.reverse.dropWhile (fun c => !(c == '/'))).reverse

/-- The invariant `_splitparams` guarantees of its path output: no `;` in
the last path segment (no `;` at all when the path has no `/`). -/
def paramsFree (l : List Char) : Prop := ';' ∉ afterLastSlash l

/-- `_splitparams`: split `;params` off the last path segment (off the whole
path when it has no `/`). -/
def splitParams (l : List Char) : List Char × List Char :=
  if '/' ∈ l then
    match splitAtFirst ';' (afterLastSlash l) with
    | (_, Option.none) => (l, [])
    | (a, some b) => (upToLastSlash l ++ a, b)
  else
    match splitAtFirst ';' l with
    | (_, Option.none) => (l, [])
    | (a, some b) => (a, b)

structure UrlParts where
  scheme : String
  netloc : String
  path : String
  params : String
  query : String
  fragment : String
deriving DecidableEq

/-- `urllib.parse.urlparse`: scheme, then netloc, then fragment, then query,
then params. -/
def urlparse (s : String) : UrlParts :=
  let l := urlFilter s.data
  let ss := schemeSplit l
  let ns := netlocSplit ss.2
  let fs := fragmentSplit ns.2
  let qs := querySplit fs.1
  let ps := splitParams qs.1
  ⟨⟨ss.1⟩, ⟨ns.1⟩, ⟨ps.1⟩, ⟨ps.2⟩, ⟨qs.2⟩, ⟨fs.2⟩⟩

/-- The `uses_netloc` scheme list of `urllib.parse` (cpython 3.11). -/
def usesNetloc : List String :=
  ["", "ftp", "http", "gopher", "nntp", "telnet", "imap", "wais", "file",
   "mms", "https", "shttp", "snews", "prospero", "rtsp", "rtsps", "rtspu",
   "rsync", "svn", "svn+ssh", "sftp", "nfs", "git", "git+ssh", "ws", "wss"]

/-- `ParseResult.geturl` = `urlunparse` over `urlunsplit` (cpython 3.11):
reattach params, then `//netloc` when there is a netloc or the scheme uses
one and the path does not already start with `//` (with the `/` guard for a
relative path), then scheme, query and fragment. -/
def geturl (u : UrlParts) : String :=
  let url0 := u.path.data ++ (if u.params.data ≠ [] then ';' :: u.params.data else [])
  let url1 :=
    if u.netloc.data ≠ [] ∨
       (u.scheme.data ≠ [] ∧ u.scheme ∈ usesNetloc ∧ url0.take 2 ≠ ['/', '/']) then
      ('/' :: '/' :: u.netloc.data) ++
        (if url0 ≠ [] ∧ url0.head? ≠ some '/' then '/' :: url0 else url0)
    else url0
  let url2 := if u.scheme.data ≠ [] then u.scheme.data ++ ':' :: url1 else url1
  let url3 := url2 ++ (if u.query.data ≠ [] then '?' :: u.query.data else [])
  ⟨url3 ++ (if u.fragment.data ≠ [] then '#' :: u.fragment.data else [])⟩

/-- `LinkExtractor._normalize_url` on an already-joined absolute URL. -/
def normalizeUrl (a : String) : String :=
  geturl { urlparse a with fragment := "", params := "", query := "" }

/-- The extractor's configuration: base domain, compiled exclude and include
patterns as matchers, and the robots decision (including the
`respect_robots` shortcut) as a predicate. -/
structure LinkConfig where
  baseDomain : String
  excludePatterns : List (String → Bool)
  includePatterns : List (String → Bool)
  robotsAllowed : String → Bool

/-- `LinkExtractor._should_include_url`. -/
def shouldIncludeUrl (cfg : LinkConfig) (url : String) : Bool :=
  if (urlparse url).netloc ≠ cfg.baseDomain then false
  else if cfg.excludePatterns.any (fun p => p url) then false
  else if !cfg.includePatterns.isEmpty then cfg.includePatterns.any (fun p => p url)
  else true

/-- `LinkExtractor.extract_links` over the joined candidates: normalize,
filter, and collect into a set (modelled as a duplicate-free list). -/
def extractLinks (cfg : LinkConfig) (candidates : List String) : List String :=
  candidates.foldl (fun acc a =>
    let n := normalizeUrl a
    if shouldIncludeUrl cfg n && cfg.robotsAllowed n then
      if n ∈ acc then acc else acc ++ [n]
    else acc) []

theorem tw_mem {p : Char → Bool} :
    ∀ {l : List Char} {x : Char}, x ∈ l.takeWhile p → x ∈ l ∧ p x = true := by
  intro l
  induction l with
  | nil => intro x h; cases h
  | cons c cs ih =>
      intro x h
      rw [List.takeWhile_cons] at h
      by_cases hc : p c = true
      · rw [if_pos hc] at h
        rcases List.mem_cons.mp h with rfl | hmem
        · exact ⟨List.mem_cons_self _ _, hc⟩
        · exact ⟨List.mem_cons_of_mem _ (ih hmem).1, (ih hmem).2⟩
      · rw [if_neg hc] at h
        cases h

theorem dw_mem {p : Char → Bool} :
    ∀ {l : List Char} {x : Char}, x ∈ l.dropWhile p → x ∈ l := by
  intro l
  induction l with
  | nil => intro x h; cases h
  | cons c cs ih =>
      intro x h
      rw [List.dropWhile_cons] at h
      by_cases hc : p c = true
      · rw [if_pos hc] at h
        exact List.mem_cons_of_mem _ (ih h)
      · rw [if_neg hc] at h
        exact h

theorem dw_head {p : Char → Bool} :
    ∀ {l : List Char} {d : Char} {ds : List Char},
      l.dropWhile p = d :: ds → p d = false := by
  intro l
  induction l with
  | nil => intro d ds h; cases h
  | cons c cs ih =>
      intro d ds h
      rw [List.dropWhile_cons] at h
      by_cases hc : p c = true
      · rw [if_pos hc] at h
        exact ih h
      · rw [if_neg hc] at h
        cases h
        exact neqTrue hc

theorem tw_all {p : Char → Bool} :
    ∀ {l : List Char}, (∀ x ∈ l, p x = true) →
      l.takeWhile p = l ∧ l.dropWhile p = [] := by
  intro l
  induction l with
  | nil => intro _; exact ⟨rfl, rfl⟩
  | cons c cs ih =>
      intro h
      have hc : p c = true := h c (List.mem_cons_self _ _)
      have ihr := ih (fun x hx => h x (List.mem_cons_of_mem _ hx))
      rw [List.takeWhile_cons, List.dropWhile_cons, if_pos hc, if_pos hc, ihr.1, ihr.2]
      exact ⟨rfl, rfl⟩

theorem tw_append_exact {p : Char → Bool} :
    ∀ (a b : List Char), (∀ x ∈ a, p x = true) →
      (b = [] ∨ ∃ d ds, b = d :: ds ∧ p d = false) →
      (a ++ b).takeWhile p = a ∧ (a ++ b).dropWhile p = b := by
  intro a
  induction a with
  | nil =>
      intro b _ hb
      rcases hb with rfl | ⟨d, ds, rfl, hd⟩
      · exact ⟨rfl, rfl⟩
      · constructor
        · show (d :: ds).takeWhile p = []
          rw [List.takeWhile_cons, if_neg (by simp [hd])]
        · show (d :: ds).dropWhile p = d :: ds
          rw [List.dropWhile_cons, if_neg (by simp [hd])]
  | cons c cs ih =>
      intro b ha hb
      have hc : p c = true := ha c (List.mem_cons_self _ _)
      have ihr := ih b (fun x hx => ha x (List.mem_cons_of_mem _ hx)) hb
      constructor
      · show (c :: (cs ++ b)).takeWhile p = c :: cs
        rw [List.takeWhile_cons, if_pos hc, ihr.1]
      · show (c :: (cs ++ b)).dropWhile p = b
        rw [List.dropWhile_cons, if_pos hc, ihr.2]

theorem tw_append_all {p : Char → Bool} :
    ∀ (a b : List Char), (∀ x ∈ a, p x = true) →
      (a ++ b).takeWhile p = a ++ b.takeWhile p := by
  intro a
  induction a with
  | nil => intro b _; rfl
  | cons c cs ih =>
      intro b h
      have hc : p c = true := h c (List.mem_cons_self _ _)
      show (c :: (cs ++ b)).takeWhile p = c :: (cs ++ b.takeWhile p)
      rw [List.takeWhile_cons, if_pos hc, ih b (fun x hx => h x (List.mem_cons_of_mem _ hx))]

theorem tw_stops {p : Char → Bool} :
    ∀ (a b : List Char), (∃ x, x ∈ a ∧ p x = false) →
      (a ++ b).takeWhile p = a.takeWhile p := by
  intro a
  induction a with
  | nil =>
      intro b h
      rcases h with ⟨x, hx, _⟩
      cases hx
  | cons c cs ih =>
      intro b h
      by_cases hc : p c = true
      · show (c :: (cs ++ b)).takeWhile p = (c :: cs).takeWhile p
        rw [List.takeWhile_cons, List.takeWhile_cons, if_pos hc, if_pos hc]
        rcases h with ⟨x, hx, hpx⟩
        rcases List.mem_cons.mp hx with rfl | hmem
        · rw [hc] at hpx
          cases hpx
        · rw [ih b ⟨x, hmem, hpx⟩]
      · show (c :: (cs ++ b)).takeWhile p = (c :: cs).takeWhile p
        rw [List.takeWhile_cons, List.takeWhile_cons, if_neg hc, if_neg hc]

theorem saf_not_mem {c : Char} {l : List Char} (h : c ∉ l) :
    splitAtFirst c l = (l, Option.none) := by
  have hall : ∀ x ∈ l, (fun d => !(d == c)) x = true := by
    intro x hx
    simp [show x ≠ c from fun hxc => h (hxc ▸ hx)]
  obtain ⟨h1, h2⟩ := tw_all hall
  unfold splitAtFirst
  rw [h1, h2]

theorem saf_some {c : Char} {l pre rest : List Char}
    (h : splitAtFirst c l = (pre, some rest)) :
    l = pre ++ c :: rest ∧ c ∉ pre ∧ pre = l.takeWhile (fun d => !(d == c)) := by
  unfold splitAtFirst at h
  cases hdw : l.dropWhile (fun d => !(d == c)) with
  | nil =>
      rw [hdw] at h
      exact absurd h (by simp)
  | cons d ds =>
      rw [hdw] at h
      have h1 : l.takeWhile (fun d => !(d == c)) = pre := congrArg Prod.fst h
      have h2 : ds = rest := by
        have := congrArg Prod.snd h
        simpa using this
      have hd0 : (fun x => !(x == c)) d = false := dw_head hdw
      have hdc : d = c := by simpa using hd0
      rw [hdc] at hdw
      subst h2
      refine ⟨?_, ?_, h1.symm⟩
      · have hl := List.takeWhile_append_dropWhile (p := fun e => !(e == c)) (l := l)
        rw [hdw, h1] at hl
        exact hl.symm
      · intro hcpre
        rw [← h1] at hcpre
        have := (tw_mem hcpre).2
        simp at this

theorem saf_none {c : Char} {l pre : List Char}
    (h : splitAtFirst c l = (pre, Option.none)) : pre = l ∧ c ∉ l := by
  unfold splitAtFirst at h
  cases hdw : l.dropWhile (fun d => !(d == c)) with
  | cons d ds =>
      rw [hdw] at h
      exact absurd h (by simp)
  | nil =>
      rw [hdw] at h
      have h1 : l.takeWhile (fun d => !(d == c)) = pre := congrArg Prod.fst h
      have hl : l.takeWhile (fun d => !(d == c)) = l := by
        have := List.takeWhile_append_dropWhile (p := fun d => !(d == c)) (l := l)
        rw [hdw, List.append_nil] at this
        exact this
      constructor
      · rw [← h1, hl]
      · intro hc
        have hmem : c ∈ l.takeWhile (fun d => !(d == c)) := hl.symm ▸ hc
        have := (tw_mem hmem).2
        simp at this

theorem saf_exact {c : Char} {a b : List Char} (h : c ∉ a) :
    splitAtFirst c (a ++ c :: b) = (a, some b) := by
  have hall : ∀ x ∈ a, (fun d => !(d == c)) x = true := by
    intro x hx
    simp [show x ≠ c from fun hxc => h (hxc ▸ hx)]
  obtain ⟨h1, h2⟩ := tw_append_exact a (c :: b) hall (Or.inr ⟨c, b, rfl, by simp⟩)
  unfold splitAtFirst
  rw [h1, h2]

theorem asciiLower_scheme {c : Char} (h : isSchemeChar c = true) :
    isSchemeChar (asciiLowerChar c) = true := by
  unfold asciiLowerChar
  by_cases h0 : c = 'A'
  · subst h0; decide
  rw [if_neg h0]
  by_cases h1 : c = 'B'
  · subst h1; decide
  rw [if_neg h1]
  by_cases h2 : c = 'C'
  · subst h2; decide
  rw [if_neg h2]
  by_cases h3 : c = 'D'
  · subst h3; decide
  rw [if_neg h3]
  by_cases h4 : c = 'E'
  · subst h4; decide
  rw [if_neg h4]
  by_cases h5 : c = 'F'
  · subst h5; decide
  rw [if_neg h5]
  by_cases h6 : c = 'G'
  · subst h6; decide
  rw [if_neg h6]
  by_cases h7 : c = 'H'
  · subst h7; decide
  rw [if_neg h7]
  by_cases h8 : c = 'I'
  · subst h8; decide
  rw [if_neg h8]
  by_cases h9 : c = 'J'
  · subst h9; decide
  rw [if_neg h9]
  by_cases h10 : c = 'K'
  · subst h10; decide
  rw [if_neg h10]
  by_cases h11 : c = 'L'
  · subst h11; decide
  rw [if_neg h11]
  by_cases h12 : c = 'M'
  · subst h12; decide
  rw [if_neg h12]
  by_cases h13 : c = 'N'
  · subst h13; decide
  rw [if_neg h13]
  by_cases h14 : c = 'O'
  · subst h14; decide
  rw [if_neg h14]
  by_cases h15 : c = 'P'
  · subst h15; decide
  rw [if_neg h15]
  by_cases h16 : c = 'Q'
  · subst h16; decide
  rw [if_neg h16]
  by_cases h17 : c = 'R'
  · subst h17; decide
  rw [if_neg h17]
  by_cases h18 : c = 'S'
  · subst h18; decide
  rw [if_neg h18]
  by_cases h19 : c = 'T'
  · subst h19; decide
  rw [if_neg h19]
  by_cases h20 : c = 'U'
  · subst h20; decide
  rw [if_neg h20]
  by_cases h21 : c = 'V'
  · subst h21; decide
  rw [if_neg h21]
  by_cases h22 : c = 'W'
  · subst h22; decide
  rw [if_neg h22]
  by_cases h23 : c = 'X'
  · subst h23; decide
  rw [if_neg h23]
  by_cases h24 : c = 'Y'
  · subst h24; decide
  rw [if_neg h24]
  by_cases h25 : c = 'Z'
  · subst h25; decide
  rw [if_neg h25]
  exact h

theorem asciiLower_alpha {c : Char} (h : c.isAlpha = true) :
    (asciiLowerChar c).isAlpha = true := by
  unfold asciiLowerChar
  by_cases h0 : c = 'A'
  · subst h0; decide
  rw [if_neg h0]
  by_cases h1 : c = 'B'
  · subst h1; decide
  rw [if_neg h1]
  by_cases h2 : c = 'C'
  · subst h2; decide
  rw [if_neg h2]
  by_cases h3 : c = 'D'
  · subst h3; decide
  rw [if_neg h3]
  by_cases h4 : c = 'E'
  · subst h4; decide
  rw [if_neg h4]
  by_cases h5 : c = 'F'
  · subst h5; decide
  rw [if_neg h5]
  by_cases h6 : c = 'G'
  · subst h6; decide
  rw [if_neg h6]
  by_cases h7 : c = 'H'
  · subst h7; decide
  rw [if_neg h7]
  by_cases h8 : c = 'I'
  · subst h8; decide
  rw [if_neg h8]
  by_cases h9 : c = 'J'
  · subst h9; decide
  rw [if_neg h9]
  by_cases h10 : c = 'K'
  · subst h10; decide
  rw [if_neg h10]
  by_cases h11 : c = 'L'
  · subst h11; decide
  rw [if_neg h11]
  by_cases h12 : c = 'M'
  · subst h12; decide
  rw [if_neg h12]
  by_cases h13 : c = 'N'
  · subst h13; decide
  rw [if_neg h13]
  by_cases h14 : c = 'O'
  · subst h14; decide
  rw [if_neg h14]
  by_cases h15 : c = 'P'
  · subst h15; decide
  rw [if_neg h15]
  by_cases h16 : c = 'Q'
  · subst h16; decide
  rw [if_neg h16]
  by_cases h17 : c = 'R'
  · subst h17; decide
  rw [if_neg h17]
  by_cases h18 : c = 'S'
  · subst h18; decide
  rw [if_neg h18]
  by_cases h19 : c = 'T'
  · subst h19; decide
  rw [if_neg h19]
  by_cases h20 : c = 'U'
  · subst h20; decide
  rw [if_neg h20]
  by_cases h21 : c = 'V'
  · subst h21; decide
  rw [if_neg h21]
  by_cases h22 : c = 'W'
  · subst h22; decide
  rw [if_neg h22]
  by_cases h23 : c = 'X'
  · subst h23; decide
  rw [if_neg h23]
  by_cases h24 : c = 'Y'
  · subst h24; decide
  rw [if_neg h24]
  by_cases h25 : c = 'Z'
  · subst h25; decide
  rw [if_neg h25]
  exact h

theorem scheme_char_ne {c : Char} (h : isSchemeChar c = true) :
    c ≠ ':' ∧ c ≠ '#' ∧ c ≠ '?' ∧ c ≠ '/' := by
  refine ⟨?_, ?_, ?_, ?_⟩ <;> (rintro rfl; revert h; decide)

theorem als_no_slash {l : List Char} (h : '/' ∉ l) : afterLastSlash l = l := by
  unfold afterLastSlash
  have hall : ∀ x ∈ l.reverse, (fun c => !(c == '/')) x = true := by
    intro x hx
    have hxl : x ∈ l := List.mem_reverse.mp hx
    simp [show x ≠ '/' from fun he => h (he ▸ hxl)]
  rw [(tw_all hall).1, List.reverse_reverse]

theorem als_suffix_slash {t l : List Char} (h : '/' ∈ l) :
    afterLastSlash (t ++ l) = afterLastSlash l := by
  unfold afterLastSlash
  rw [List.reverse_append, tw_stops _ _ ⟨'/', List.mem_reverse.mpr h, by simp⟩]

theorem als_mem_no_slash {t l : List Char} (h : '/' ∉ l) :
    ∀ x ∈ l, x ∈ afterLastSlash (t ++ l) := by
  intro x hx
  unfold afterLastSlash
  rw [List.reverse_append]
  have hall : ∀ y ∈ l.reverse, (fun c => !(c == '/')) y = true := by
    intro y hy
    have hyl : y ∈ l := List.mem_reverse.mp hy
    simp [show y ≠ '/' from fun he => h (he ▸ hyl)]
  rw [tw_append_all _ _ hall]
  rw [List.reverse_append, List.reverse_reverse]
  exact List.mem_append.mpr (Or.inr hx)

theorem paramsFree_nil : paramsFree [] := by
  unfold paramsFree afterLastSlash
  simp

theorem paramsFree_suffix {t l : List Char} (h : paramsFree (t ++ l)) :
    paramsFree l := by
  unfold paramsFree at h ⊢
  by_cases hs : '/' ∈ l
  · rwa [als_suffix_slash hs] at h
  · rw [als_no_slash hs]
    intro hsemi
    exact h (als_mem_no_slash hs ';' hsemi)

theorem paramsFree_cons_slash {l : List Char} (h : paramsFree l) :
    paramsFree ('/' :: l) := by
  unfold paramsFree at h ⊢
  by_cases hs : '/' ∈ l
  · rwa [show ('/' :: l : List Char) = ['/'] ++ l from rfl, als_suffix_slash hs]
  · rw [als_no_slash hs] at h
    have hals : afterLastSlash ('/' :: l) = l := by
      unfold afterLastSlash
      have hrev : ('/' :: l).reverse = l.reverse ++ ['/'] := by simp
      have hall : ∀ x ∈ l.reverse, (fun c => !(c == '/')) x = true := by
        intro x hx
        have hxl : x ∈ l := List.mem_reverse.mp hx
        simp [show x ≠ '/' from fun he => hs (he ▸ hxl)]
      rw [hrev, (tw_append_exact _ _ hall (Or.inr ⟨'/', [], rfl, by simp⟩)).1,
          List.reverse_reverse]
    rwa [hals]

theorem splitParams_of_paramsFree {l : List Char} (h : paramsFree l) :
    splitParams l = (l, []) := by
  unfold splitParams
  by_cases hs : '/' ∈ l
  · rw [if_pos hs, saf_not_mem h]
  · rw [if_neg hs]
    have hls : ';' ∉ l := by
      have := als_no_slash hs
      unfold paramsFree at h
      rwa [this] at h
    rw [saf_not_mem hls]

theorem splitParams_spec (l : List Char) :
    paramsFree (splitParams l).1 ∧ ∃ t, (splitParams l).1 ++ t = l := by
  unfold splitParams
  by_cases hs : '/' ∈ l
  · rw [if_pos hs]
    cases hsp : splitAtFirst ';' (afterLastSlash l) with
    | mk a ob =>
      cases ob with
      | none =>
          obtain ⟨ha, hna⟩ := saf_none hsp
          constructor
          · exact hna
          · exact ⟨[], List.append_nil l⟩
      | some b =>
          obtain ⟨heq, hnmem, _⟩ := saf_some hsp
          have hup : upToLastSlash l ++ afterLastSlash l = l := by
            unfold upToLastSlash afterLastSlash
            rw [← List.reverse_append, List.takeWhile_append_dropWhile,
                List.reverse_reverse]
          have hslash : '/' ∉ afterLastSlash l := by
            intro hmem
            unfold afterLastSlash at hmem
            have hmem2 : '/' ∈ l.reverse.takeWhile (fun c => !(c == '/')) :=
              List.mem_reverse.mp hmem
            have := (tw_mem hmem2).2
            simp at this
          have hsla : '/' ∉ a := by
            intro hmem
            exact hslash (heq ▸ List.mem_append.mpr (Or.inl hmem))
          have hend : ∃ t2, upToLastSlash l = t2 ++ ['/'] := by
            unfold upToLastSlash
            cases hdw : l.reverse.dropWhile (fun c => !(c == '/')) with
            | nil =>
                exfalso
                have hmem : '/' ∈ l.reverse := List.mem_reverse.mpr hs
                have htw := List.takeWhile_append_dropWhile
                  (p := fun c => !(c == '/')) (l := l.reverse)
                rw [hdw, List.append_nil] at htw
                have := (tw_mem (htw.symm ▸ hmem)).2
                simp at this
            | cons d ds =>
                have hd : (fun c => !(c == '/')) d = false := dw_head hdw
                have hdc : d = '/' := by simpa using hd
                subst hdc
                exact ⟨ds.reverse, by simp⟩
          constructor
          · show paramsFree (upToLastSlash l ++ a)
            obtain ⟨t2, ht2⟩ := hend
            rw [ht2]
            have h1 : afterLastSlash (t2 ++ ['/'] ++ a) = a := by
              rw [List.append_assoc]
              show afterLastSlash (t2 ++ ('/' :: a)) = a
              rw [als_suffix_slash (l := '/' :: a) (List.mem_cons_self '/' a)]
              have h2 : afterLastSlash ('/' :: a) = a := by
                unfold afterLastSlash
                have hrev : ('/' :: a).reverse = a.reverse ++ ['/'] := by simp
                have hall : ∀ x ∈ a.reverse, (fun c => !(c == '/')) x = true := by
                  intro x hx
                  have hxl : x ∈ a := List.mem_reverse.mp hx
                  simp [show x ≠ '/' from fun he => hsla (he ▸ hxl)]
                rw [hrev, (tw_append_exact _ _ hall (Or.inr ⟨'/', [], rfl, by simp⟩)).1,
                    List.reverse_reverse]
              exact h2
            unfold paramsFree
            rw [h1]
            exact hnmem
          · refine ⟨';' :: b, ?_⟩
            rw [List.append_assoc, ← heq, hup]
  · rw [if_neg hs]
    cases hsp : splitAtFirst ';' l with
    | mk a ob =>
      cases ob with
      | none =>
          obtain ⟨ha, hna⟩ := saf_none hsp
          constructor
          · unfold paramsFree
            rw [als_no_slash hs]
            exact hna
          · exact ⟨[], List.append_nil l⟩
      | some b =>
          obtain ⟨heq, hnmem, _⟩ := saf_some hsp
          have hsla : '/' ∉ a := by
            intro hmem
            exact hs (heq ▸ List.mem_append.mpr (Or.inl hmem))
          constructor
          · unfold paramsFree
            rw [als_no_slash hsla]
            exact hnmem
          · exact ⟨';' :: b, heq.symm⟩

theorem schemeSplit_cases (l : List Char) :
    schemeSplit l = ([], l) ∨
    ∃ pre rest, l = pre ++ ':' :: rest ∧ pre ≠ [] ∧ pre.all isSchemeChar = true ∧
      (∃ c cs, pre = c :: cs ∧ c.isAlpha = true) ∧
      schemeSplit l = (pre.map asciiLowerChar, rest) := by
  cases hsp : splitAtFirst ':' l with
  | mk pre ob =>
    cases ob with
    | none =>
        left
        unfold schemeSplit
        rw [hsp]
    | some rest =>
        obtain ⟨heq, hnm, _⟩ := saf_some hsp
        cases pre with
        | nil =>
            left
            unfold schemeSplit
            rw [hsp]
        | cons c cs =>
            by_cases hv : (c.isAlpha && (c :: cs).all isSchemeChar) = true
            · right
              refine ⟨c :: cs, rest, heq, by simp, (andE hv).2,
                ⟨c, cs, rfl, (andE hv).1⟩, ?_⟩
              unfold schemeSplit
              rw [hsp]
              show (if c.isAlpha && (c :: cs).all isSchemeChar then
                ((c :: cs).map asciiLowerChar, rest) else ([], l)) = _
              rw [if_pos hv]
            · left
              unfold schemeSplit
              rw [hsp]
              show (if c.isAlpha && (c :: cs).all isSchemeChar then
                ((c :: cs).map asciiLowerChar, rest) else ([], l)) = ([], l)
              rw [if_neg hv]

theorem schemeSplit_fst_nil {l : List Char} (h : (schemeSplit l).1 = []) :
    schemeSplit l = ([], l) := by
  rcases schemeSplit_cases l with hs | ⟨pre, rest, _, hne, _, _, hs⟩
  · exact hs
  · exfalso
    rw [hs] at h
    simp only at h
    exact hne (List.map_eq_nil_iff.mp h)

theorem schemeSplit_out (l : List Char) :
    schemeSplit l = ([], l) ∨
    ((schemeSplit l).1 ≠ [] ∧ (schemeSplit l).1.all isSchemeChar = true ∧
     ∃ c cs, (schemeSplit l).1 = c :: cs ∧ c.isAlpha = true) := by
  rcases schemeSplit_cases l with h | ⟨pre, rest, heq, hne, hall, ⟨c, cs, hpc, halpha⟩, h⟩
  · exact Or.inl h
  · right
    rw [h]
    subst hpc
    refine ⟨by simp, ?_, asciiLowerChar c, cs.map asciiLowerChar, by simp,
      asciiLower_alpha halpha⟩
    rw [List.all_eq_true] at hall ⊢
    intro x hx
    rw [List.mem_map] at hx
    obtain ⟨y, hy, rfl⟩ := hx
    exact asciiLower_scheme (hall y hy)

theorem schemeSplit_exact {sch rest : List Char} (hne : sch ≠ [])
    (hall : sch.all isSchemeChar = true)
    (halpha : ∃ c cs, sch = c :: cs ∧ c.isAlpha = true) :
    ∃ sch2, schemeSplit (sch ++ ':' :: rest) = (sch2, rest) := by
  have hnm : ':' ∉ sch := by
    intro hmem
    have := List.all_eq_true.mp hall ':' hmem
    exact absurd this (by decide)
  have hsp := saf_exact (a := sch) (b := rest) hnm
  obtain ⟨c, cs, rfl, ha⟩ := halpha
  refine ⟨(c :: cs).map asciiLowerChar, ?_⟩
  unfold schemeSplit
  rw [hsp]
  show (if c.isAlpha && (c :: cs).all isSchemeChar then
    ((c :: cs).map asciiLowerChar, rest) else _) = _
  rw [if_pos (show (c.isAlpha && (c :: cs).all isSchemeChar) = true by rw [ha, hall]; rfl)]

theorem schemeSplit_head_nonalpha {l : List Char}
    (h : ∀ c cs, l = c :: cs → c.isAlpha = false) :
    schemeSplit l = ([], l) := by
  cases hsp : splitAtFirst ':' l with
  | mk pre ob =>
    cases ob with
    | none =>
        unfold schemeSplit
        rw [hsp]
    | some rest =>
        obtain ⟨heq, hnm, hpre⟩ := saf_some hsp
        cases pre with
        | nil =>
            unfold schemeSplit
            rw [hsp]
        | cons c cs =>
            have hc : c.isAlpha = false := h c (cs ++ ':' :: rest) (by simpa using heq)
            unfold schemeSplit
            rw [hsp]
            show (if c.isAlpha && (c :: cs).all isSchemeChar then _ else ([], l)) = ([], l)
            rw [if_neg (by simp [hc])]

theorem schemeSplit_prefix {path t : List Char}
    (hfail : schemeSplit (path ++ t) = ([], path ++ t)) :
    schemeSplit path = ([], path) := by
  by_cases hc : ':' ∈ path
  · cases hspp : splitAtFirst ':' path with
    | mk prep obp =>
      cases obp with
      | none =>
          obtain ⟨_, hnm⟩ := saf_none hspp
          exact absurd hc hnm
      | some restp =>
          obtain ⟨heqp, hnmp, hprep⟩ := saf_some hspp
          have heql : path ++ t = prep ++ ':' :: (restp ++ t) := by
            rw [heqp]
            simp
          have hspl : splitAtFirst ':' (path ++ t) = (prep, some (restp ++ t)) := by
            rw [heql]
            exact saf_exact hnmp
          cases prep with
          | nil =>
              unfold schemeSplit
              rw [hspp]
          | cons c cs =>
              by_cases hv : (c.isAlpha && (c :: cs).all isSchemeChar) = true
              · exfalso
                unfold schemeSplit at hfail
                rw [hspl] at hfail
                have hfail2 : (if c.isAlpha && (c :: cs).all isSchemeChar then
                    ((c :: cs).map asciiLowerChar, restp ++ t)
                  else ([], path ++ t)) = ([], path ++ t) := hfail
                rw [if_pos hv] at hfail2
                have := congrArg Prod.fst hfail2
                simp at this
              · unfold schemeSplit
                rw [hspp]
                show (if c.isAlpha && (c :: cs).all isSchemeChar then _
                  else ([], path)) = ([], path)
                rw [if_neg hv]
  · unfold schemeSplit
    rw [saf_not_mem hc]

theorem netlocSplit_exact {nl r : List Char}
    (hnl : ∀ x ∈ nl, netStop x = true)
    (hr : r = [] ∨ ∃ ds, r = '/' :: ds) :
    netlocSplit ('/' :: '/' :: (nl ++ r)) = (nl, r) := by
  unfold netlocSplit
  rw [if_pos (show List.take 2 ('/' :: '/' :: (nl ++ r)) = ['/', '/'] from rfl)]
  have hb : r = [] ∨ ∃ d ds, r = d :: ds ∧ netStop d = false := by
    rcases hr with rfl | ⟨ds, rfl⟩
    · exact Or.inl rfl
    · exact Or.inr ⟨'/', ds, rfl, by decide⟩
  obtain ⟨h1, h2⟩ := tw_append_exact nl r hnl hb
  show ((nl ++ r).takeWhile netStop, (nl ++ r).dropWhile netStop) = (nl, r)
  rw [h1, h2]

theorem netlocSplit_not_slashslash {l : List Char} (h : l.take 2 ≠ ['/', '/']) :
    netlocSplit l = ([], l) := by
  unfold netlocSplit
  rw [if_neg h]

theorem netlocSplit_fst_netStop (l : List Char) :
    ∀ x ∈ (netlocSplit l).1, netStop x = true := by
  unfold netlocSplit
  by_cases h2 : l.take 2 = ['/', '/']
  · rw [if_pos h2]
    intro x hx
    exact (tw_mem hx).2
  · rw [if_neg h2]
    intro x hx
    exact absurd hx (List.not_mem_nil x)

theorem netlocSplit_snd_sub (l : List Char) :
    ∀ x ∈ (netlocSplit l).2, x ∈ l := by
  unfold netlocSplit
  by_cases h2 : l.take 2 = ['/', '/']
  · rw [if_pos h2]
    intro x hx
    exact List.mem_of_mem_drop (dw_mem hx)
  · rw [if_neg h2]
    exact fun x hx => hx

theorem netlocSplit_snd_suffix (l : List Char) :
    ∃ t, t ++ (netlocSplit l).2 = l := by
  unfold netlocSplit
  by_cases h2 : l.take 2 = ['/', '/']
  · rw [if_pos h2]
    refine ⟨l.take 2 ++ (l.drop 2).takeWhile netStop, ?_⟩
    rw [List.append_assoc, List.takeWhile_append_dropWhile, List.take_append_drop]
  · rw [if_neg h2]
    exact ⟨[], rfl⟩

theorem fragmentSplit_fst (l : List Char) :
    '#' ∉ (fragmentSplit l).1 ∧ ∃ t, (fragmentSplit l).1 ++ t = l := by
  cases hsp : splitAtFirst '#' l with
  | mk pre ob =>
    cases ob with
    | none =>
        obtain ⟨h1, h2⟩ := saf_none hsp
        have he : fragmentSplit l = (l, []) := by
          unfold fragmentSplit
          rw [hsp, h1]
        rw [he]
        exact ⟨h2, [], List.append_nil l⟩
    | some rest =>
        obtain ⟨heq, hnm, _⟩ := saf_some hsp
        have he : fragmentSplit l = (pre, rest) := by
          unfold fragmentSplit
          rw [hsp]
        rw [he]
        exact ⟨hnm, '#' :: rest, heq.symm⟩

theorem querySplit_fst (l : List Char) :
    '?' ∉ (querySplit l).1 ∧ ∃ t, (querySplit l).1 ++ t = l := by
  cases hsp : splitAtFirst '?' l with
  | mk pre ob =>
    cases ob with
    | none =>
        obtain ⟨h1, h2⟩ := saf_none hsp
        have he : querySplit l = (l, []) := by
          unfold querySplit
          rw [hsp, h1]
        rw [he]
        exact ⟨h2, [], List.append_nil l⟩
    | some rest =>
        obtain ⟨heq, hnm, _⟩ := saf_some hsp
        have he : querySplit l = (pre, rest) := by
          unfold querySplit
          rw [hsp]
        rw [he]
        exact ⟨hnm, '?' :: rest, heq.symm⟩

theorem fragmentSplit_no_hash {l : List Char} (h : '#' ∉ l) :
    fragmentSplit l = (l, []) := by
  unfold fragmentSplit
  rw [saf_not_mem h]

theorem querySplit_no_q {l : List Char} (h : '?' ∉ l) :
    querySplit l = (l, []) := by
  unfold querySplit
  rw [saf_not_mem h]

/-- The fragment, query and params steps of `urlparse` in one function: what
remains of the post-netloc text as the path. -/
def pathOf (l2 : List Char) : List Char :=
  (splitParams (querySplit (fragmentSplit l2).1).1).1

theorem pathOf_facts (l2 : List Char) :
    '#' ∉ pathOf l2 ∧ '?' ∉ pathOf l2 ∧ paramsFree (pathOf l2) ∧
    ∃ t, pathOf l2 ++ t = l2 := by
  obtain ⟨hfr, t1, hfr1⟩ := fragmentSplit_fst l2
  obtain ⟨hqr, t2, hq1⟩ := querySplit_fst (fragmentSplit l2).1
  obtain ⟨hpf, t3, hsp1⟩ := splitParams_spec (querySplit (fragmentSplit l2).1).1
  have hsub1 : ∀ x ∈ pathOf l2, x ∈ (querySplit (fragmentSplit l2).1).1 := by
    intro x hx
    rw [← hsp1]
    exact List.mem_append.mpr (Or.inl hx)
  have hsub2 : ∀ x ∈ pathOf l2, x ∈ (fragmentSplit l2).1 := by
    intro x hx
    rw [← hq1]
    exact List.mem_append.mpr (Or.inl (hsub1 x hx))
  refine ⟨fun hm => hfr (hsub2 _ hm), fun hm => hqr (hsub1 _ hm), hpf,
    t3 ++ (t2 ++ t1), ?_⟩
  show (splitParams (querySplit (fragmentSplit l2).1).1).1 ++ (t3 ++ (t2 ++ t1)) = l2
  rw [← List.append_assoc, hsp1, ← List.append_assoc, hq1, hfr1]

theorem pathOf_no_split {l2 : List Char} (h1 : '#' ∉ l2) (h2 : '?' ∉ l2)
    (h3 : paramsFree l2) : pathOf l2 = l2 := by
  unfold pathOf
  rw [fragmentSplit_no_hash h1]
  show (splitParams (querySplit l2).1).1 = l2
  rw [querySplit_no_q h2]
  show (splitParams l2).1 = l2
  rw [splitParams_of_paramsFree h3]

theorem take_two_of_prefix {a l : List Char} (hpre : ∃ t, a ++ t = l)
    (h : a.take 2 = ['/', '/']) : l.take 2 = ['/', '/'] := by
  obtain ⟨t, rfl⟩ := hpre
  cases a with
  | nil => cases h
  | cons x xs =>
    cases xs with
    | nil => cases h
    | cons y ys =>
        have hx : x = '/' := by
          have := congrArg (fun q => q.head?) h
          simpa using this
        have hy : y = '/' := by
          have := congrArg (fun q => q.tail.head?) h
          simpa using this
        subst hx
        subst hy
        rfl

theorem geturl_stripped (sch nl pth : List Char) :
    (geturl ⟨⟨sch⟩, ⟨nl⟩, ⟨pth⟩, "", "", ""⟩).data =
      (let url1 :=
        if nl ≠ [] ∨ (sch ≠ [] ∧ (⟨sch⟩ : String) ∈ usesNetloc ∧ pth.take 2 ≠ ['/', '/'])
        then ('/' :: '/' :: nl) ++
          (if pth ≠ [] ∧ pth.head? ≠ some '/' then '/' :: pth else pth)
        else pth
       if sch ≠ [] then sch ++ ':' :: url1 else url1) := by
  have hd : ("" : String).data = [] := rfl
  unfold geturl
  simp only [hd, ne_eq, not_true_eq_false, if_false, List.append_nil, not_false_eq_true]

theorem scheme_char_not_tab {c : Char} (h : isSchemeChar c = true) :
    (!(c == '\t' || c == '\r' || c == '\n')) = true := by
  have h1 : c ≠ '\t' := by intro he; subst he; exact absurd h (by decide)
  have h2 : c ≠ '\r' := by intro he; subst he; exact absurd h (by decide)
  have h3 : c ≠ '\n' := by intro he; subst he; exact absurd h (by decide)
  simp [h1, h2, h3]

theorem post_scheme_parse (l1' : List Char) (hnoh : '#' ∉ l1') (hnoq : '?' ∉ l1')
    (hpf2 : paramsFree (netlocSplit l1').2) :
    (fragmentSplit (netlocSplit l1').2).2 = [] ∧
    (querySplit (fragmentSplit (netlocSplit l1').2).1).2 = [] ∧
    (splitParams (querySplit (fragmentSplit (netlocSplit l1').2).1).1).2 = [] := by
  have hsub := netlocSplit_snd_sub l1'
  have h1 : '#' ∉ (netlocSplit l1').2 := fun hm => hnoh (hsub _ hm)
  have h2 : '?' ∉ (netlocSplit l1').2 := fun hm => hnoq (hsub _ hm)
  refine ⟨?_, ?_, ?_⟩
  · rw [fragmentSplit_no_hash h1]
  · show (querySplit (fragmentSplit (netlocSplit l1').2).1).2 = []
    rw [fragmentSplit_no_hash h1]
    show (querySplit (netlocSplit l1').2).2 = []
    rw [querySplit_no_q h2]
  · show (splitParams (querySplit (fragmentSplit (netlocSplit l1').2).1).1).2 = []
    rw [fragmentSplit_no_hash h1]
    show (splitParams (querySplit (netlocSplit l1').2).1).2 = []
    rw [querySplit_no_q h2]
    show (splitParams (netlocSplit l1').2).2 = []
    rw [splitParams_of_paramsFree hpf2]

theorem stripped_roundtrip (sch nl pth : List Char)
    (hschOk : sch = [] ∨
      (sch ≠ [] ∧ sch.all isSchemeChar = true ∧ ∃ c cs, sch = c :: cs ∧ c.isAlpha = true))
    (hnlOk : ∀ x ∈ nl, netStop x = true)
    (hnltab : ∀ x ∈ nl, (!(x == '\t' || x == '\r' || x == '\n')) = true)
    (hpthtab : ∀ x ∈ pth, (!(x == '\t' || x == '\r' || x == '\n')) = true)
    (hnoh : '#' ∉ pth) (hnoq : '?' ∉ pth) (hpf : paramsFree pth)
    (hD : sch = [] → nl = [] → pth = [] ∨ (∃ ds, pth = '/' :: ds) ∨
      (schemeSplit pth = ([], pth) ∧ pth.take 2 ≠ ['/', '/'])) :
    (urlparse (geturl ⟨⟨sch⟩, ⟨nl⟩, ⟨pth⟩, "", "", ""⟩)).fragment = "" ∧
    (urlparse (geturl ⟨⟨sch⟩, ⟨nl⟩, ⟨pth⟩, "", "", ""⟩)).query = "" ∧
    (urlparse (geturl ⟨⟨sch⟩, ⟨nl⟩, ⟨pth⟩, "", "", ""⟩)).params = "" := by
  have hud := geturl_stripped sch nl pth
  have hsub : ∀ x ∈ (geturl ⟨⟨sch⟩, ⟨nl⟩, ⟨pth⟩, "", "", ""⟩).data,
      x ∈ sch ∨ x ∈ nl ∨ x ∈ pth ∨ x = ':' ∨ x = '/' := by
    intro x hx
    rw [hud] at hx
    simp only at hx
    split_ifs at hx <;>
      ((try simp only [List.mem_append, List.mem_cons] at hx); tauto)
  have hschchar : ∀ x ∈ sch, isSchemeChar x = true := by
    rcases hschOk with rfl | ⟨_, hall, _⟩
    · intro x hx
      exact absurd hx (List.not_mem_nil x)
    · exact List.all_eq_true.mp hall
  have hfilt : urlFilter (geturl ⟨⟨sch⟩, ⟨nl⟩, ⟨pth⟩, "", "", ""⟩).data =
      (geturl ⟨⟨sch⟩, ⟨nl⟩, ⟨pth⟩, "", "", ""⟩).data := by
    apply List.filter_eq_self.mpr
    intro x hx
    rcases hsub x hx with hm | hm | hm | rfl | rfl
    · exact scheme_char_not_tab (hschchar x hm)
    · exact hnltab x hm
    · exact hpthtab x hm
    · decide
    · decide
  -- the two goals-shaping facts about the post-scheme remainder
  by_cases hbig : nl ≠ [] ∨
      (sch ≠ [] ∧ (⟨sch⟩ : String) ∈ usesNetloc ∧ pth.take 2 ≠ ['/', '/'])
  · -- `//netloc` is attached
    set PP := (if pth ≠ [] ∧ pth.head? ≠ some '/' then '/' :: pth else pth) with hPPdef
    have hPPform : PP = [] ∨ ∃ ds, PP = '/' :: ds := by
      rw [hPPdef]
      by_cases hp : pth ≠ [] ∧ pth.head? ≠ some '/'
      · rw [if_pos hp]
        exact Or.inr ⟨pth, rfl⟩
      · rw [if_neg hp]
        rcases Classical.em (pth = []) with rfl | hne
        · exact Or.inl rfl
        · cases pth with
          | nil => exact Or.inl rfl
          | cons c cs =>
              right
              have : c = '/' := by
                by_contra hc
                exact hp ⟨by simp, by simpa using hc⟩
              exact ⟨cs, by rw [this]⟩
    have hPPnoh : '#' ∉ PP := by
      rw [hPPdef]
      split_ifs
      · intro hm
        rcases List.mem_cons.mp hm with he | hm2
        · cases he
        · exact hnoh hm2
      · exact hnoh
    have hPPnoq : '?' ∉ PP := by
      rw [hPPdef]
      split_ifs
      · intro hm
        rcases List.mem_cons.mp hm with he | hm2
        · cases he
        · exact hnoq hm2
      · exact hnoq
    have hPPpf : paramsFree PP := by
      rw [hPPdef]
      split_ifs
      · exact paramsFree_cons_slash hpf
      · exact hpf
    have hul : (geturl ⟨⟨sch⟩, ⟨nl⟩, ⟨pth⟩, "", "", ""⟩).data =
        (if sch ≠ [] then sch ++ ':' :: ('/' :: '/' :: (nl ++ PP))
         else '/' :: '/' :: (nl ++ PP)) := by
      rw [hud]
      simp only [if_pos hbig, hPPdef]
      split_ifs <;> rfl
    have hss : (schemeSplit (geturl ⟨⟨sch⟩, ⟨nl⟩, ⟨pth⟩, "", "", ""⟩).data).2 =
        '/' :: '/' :: (nl ++ PP) := by
      rw [hul]
      by_cases hs : sch ≠ []
      · rw [if_pos hs]
        rcases hschOk with rfl | ⟨_, hall, halpha⟩
        · exact absurd rfl hs
        · obtain ⟨sch2, hex⟩ := schemeSplit_exact hs hall halpha
          rw [hex]
      · rw [if_neg hs]
        rw [schemeSplit_head_nonalpha (fun c cs hcc => by
          have : c = '/' := by
            have := congrArg List.head? hcc
            simpa using this.symm
          rw [this]
          rfl)]
    have hns : (netlocSplit ('/' :: '/' :: (nl ++ PP))).2 = PP := by
      rw [netlocSplit_exact hnlOk hPPform]
    refine ⟨?_, ?_, ?_⟩
    · show (⟨(fragmentSplit (netlocSplit (schemeSplit (urlFilter
        (geturl ⟨⟨sch⟩, ⟨nl⟩, ⟨pth⟩, "", "", ""⟩).data)).2).2).2⟩ : String) = ""
      rw [hfilt, hss, hns, fragmentSplit_no_hash hPPnoh]
    · show (⟨(querySplit (fragmentSplit (netlocSplit (schemeSplit (urlFilter
        (geturl ⟨⟨sch⟩, ⟨nl⟩, ⟨pth⟩, "", "", ""⟩).data)).2).2).1).2⟩ : String) = ""
      rw [hfilt, hss, hns, fragmentSplit_no_hash hPPnoh]
      show (⟨(querySplit PP).2⟩ : String) = ""
      rw [querySplit_no_q hPPnoq]
    · show (⟨(splitParams (querySplit (fragmentSplit (netlocSplit (schemeSplit (urlFilter
        (geturl ⟨⟨sch⟩, ⟨nl⟩, ⟨pth⟩, "", "", ""⟩).data)).2).2).1).1).2⟩ : String) = ""
      rw [hfilt, hss, hns, fragmentSplit_no_hash hPPnoh]
      show (⟨(splitParams (querySplit PP).1).2⟩ : String) = ""
      rw [querySplit_no_q hPPnoq]
      show (⟨(splitParams PP).2⟩ : String) = ""
      rw [splitParams_of_paramsFree hPPpf]
  · -- no `//` attached: the remainder after the scheme is the path itself
    have hul : (geturl ⟨⟨sch⟩, ⟨nl⟩, ⟨pth⟩, "", "", ""⟩).data =
        (if sch ≠ [] then sch ++ ':' :: pth else pth) := by
      rw [hud]
      simp only [if_neg hbig]
    have hss : (schemeSplit (geturl ⟨⟨sch⟩, ⟨nl⟩, ⟨pth⟩, "", "", ""⟩).data).2 = pth := by
      rw [hul]
      by_cases hs : sch ≠ []
      · rw [if_pos hs]
        rcases hschOk with rfl | ⟨_, hall, halpha⟩
        · exact absurd rfl hs
        · obtain ⟨sch2, hex⟩ := schemeSplit_exact hs hall halpha
          rw [hex]
      · rw [if_neg hs]
        have hsch0 : sch = [] := by
          by_contra hc
          exact hs hc
        have hnl0 : nl = [] := by
          by_contra hc
          exact hbig (Or.inl hc)
        rcases hD hsch0 hnl0 with rfl | ⟨ds, rfl⟩ | ⟨hfail, _⟩
        · rfl
        · rw [schemeSplit_head_nonalpha (fun c cs hcc => by
            have : c = '/' := by
              have := congrArg List.head? hcc
              simpa using this.symm
            rw [this]
            rfl)]
        · rw [hfail]
    have hpf2 : paramsFree (netlocSplit pth).2 := by
      obtain ⟨t, ht⟩ := netlocSplit_snd_suffix pth
      exact paramsFree_suffix (t := t) (ht.symm ▸ hpf)
    obtain ⟨hc1, hc2, hc3⟩ := post_scheme_parse pth hnoh hnoq hpf2
    refine ⟨?_, ?_, ?_⟩
    · show (⟨(fragmentSplit (netlocSplit (schemeSplit (urlFilter
        (geturl ⟨⟨sch⟩, ⟨nl⟩, ⟨pth⟩, "", "", ""⟩).data)).2).2).2⟩ : String) = ""
      rw [hfilt, hss, hc1]
    · show (⟨(querySplit (fragmentSplit (netlocSplit (schemeSplit (urlFilter
        (geturl ⟨⟨sch⟩, ⟨nl⟩, ⟨pth⟩, "", "", ""⟩).data)).2).2).1).2⟩ : String) = ""
      rw [hfilt, hss, hc2]
    · show (⟨(splitParams (querySplit (fragmentSplit (netlocSplit (schemeSplit (urlFilter
        (geturl ⟨⟨sch⟩, ⟨nl⟩, ⟨pth⟩, "", "", ""⟩).data)).2).2).1).1).2⟩ : String) = ""
      rw [hfilt, hss, hc3]

theorem schemeSplit_snd_sub (l : List Char) :
    ∀ x ∈ (schemeSplit l).2, x ∈ l := by
  rcases schemeSplit_cases l with h | ⟨pre, rest, heq, _, _, _, h⟩
  · rw [h]
    exact fun x hx => hx
  · intro x hx
    rw [h] at hx
    have hx2 : x ∈ rest := hx
    rw [heq]
    exact List.mem_append.mpr (Or.inr (List.mem_cons_of_mem _ hx2))

theorem netlocSplit_fst_sub (l : List Char) :
    ∀ x ∈ (netlocSplit l).1, x ∈ l := by
  unfold netlocSplit
  by_cases h2 : l.take 2 = ['/', '/']
  · rw [if_pos h2]
    intro x hx
    exact List.mem_of_mem_drop (tw_mem hx).1
  · rw [if_neg h2]
    intro x hx
    exact absurd hx (List.not_mem_nil x)

theorem netStop_false {d : Char} (h : netStop d = false) :
    d = '/' ∨ d = '?' ∨ d = '#' := by
  have h2 : (d == '/' || d == '?' || d == '#') = true := by
    unfold netStop at h
    cases hb : (d == '/' || d == '?' || d == '#')
    · rw [hb] at h
      cases h
    · rfl
  simp only [Bool.or_eq_true, beq_iff_eq] at h2
  tauto

theorem normalize_parse (a : String) :
    (urlparse (normalizeUrl a)).fragment = "" ∧
    (urlparse (normalizeUrl a)).query = "" ∧
    (urlparse (normalizeUrl a)).params = "" := by
  have hkey : normalizeUrl a =
      geturl ⟨⟨(schemeSplit (urlFilter a.data)).1⟩,
        ⟨(netlocSplit (schemeSplit (urlFilter a.data)).2).1⟩,
        ⟨pathOf (netlocSplit (schemeSplit (urlFilter a.data)).2).2⟩, "", "", ""⟩ := rfl
  rw [hkey]
  set L := urlFilter a.data with hLdef
  set sch := (schemeSplit L).1 with hschdef
  set l1 := (schemeSplit L).2 with hl1def
  set nl := (netlocSplit l1).1 with hnldef
  set l2 := (netlocSplit l1).2 with hl2def
  set pth := pathOf l2 with hpthdef
  have memL : ∀ x ∈ L, (!(x == '\t' || x == '\r' || x == '\n')) = true := by
    intro x hx
    rw [hLdef] at hx
    exact (List.mem_filter.mp hx).2
  obtain ⟨hnoh, hnoq, hpf, hpre⟩ := pathOf_facts l2
  rw [← hpthdef] at hnoh hnoq hpf hpre
  have hmem_l1 : ∀ x ∈ l1, x ∈ L := by
    rw [hl1def]
    exact schemeSplit_snd_sub L
  have hmem_nl : ∀ x ∈ nl, x ∈ L := by
    intro x hx
    rw [hnldef] at hx
    exact hmem_l1 x (netlocSplit_fst_sub l1 x hx)
  obtain ⟨t, ht⟩ := hpre
  have hmem_pth : ∀ x ∈ pth, x ∈ L := by
    intro x hx
    have hx2 : x ∈ l2 := by
      rw [← ht]
      exact List.mem_append.mpr (Or.inl hx)
    rw [hl2def] at hx2
    exact hmem_l1 x (netlocSplit_snd_sub l1 x hx2)
  apply stripped_roundtrip
  · rcases schemeSplit_out L with heq | ⟨h1, h2, h3⟩
    · left
      rw [hschdef, heq]
    · right
      rw [hschdef]
      exact ⟨h1, h2, h3⟩
  · rw [hnldef]
    exact netlocSplit_fst_netStop l1
  · exact fun x hx => memL x (hmem_nl x hx)
  · exact fun x hx => memL x (hmem_pth x hx)
  · exact hnoh
  · exact hnoq
  · exact hpf
  · intro hs0 hn0
    have h0 : (schemeSplit L).1 = [] := by
      rw [← hschdef]
      exact hs0
    have hsplit : schemeSplit L = ([], L) := schemeSplit_fst_nil h0
    have hl1L : l1 = L := by
      rw [hl1def, hsplit]
    by_cases hslash : l1.take 2 = ['/', '/']
    · have hl2eq : l2 = (l1.drop 2).dropWhile netStop := by
        rw [hl2def]
        unfold netlocSplit
        rw [if_pos hslash]
      cases hview : pth with
      | nil => exact Or.inl rfl
      | cons p ps =>
          have hdw : (l1.drop 2).dropWhile netStop = p :: (ps ++ t) := by
            rw [← hl2eq, ← ht, hview]
            rfl
          have hns : netStop p = false := dw_head hdw
          rcases netStop_false hns with rfl | rfl | rfl
          · exact Or.inr (Or.inl ⟨ps, rfl⟩)
          · exact absurd (by rw [hview]; exact List.mem_cons_self _ _ : '?' ∈ pth) hnoq
          · exact absurd (by rw [hview]; exact List.mem_cons_self _ _ : '#' ∈ pth) hnoh
    · have hl2L : l2 = L := by
        rw [hl2def, netlocSplit_not_slashslash hslash, hl1L]
      have htL : pth ++ t = L := by
        rw [ht, hl2L]
      refine Or.inr (Or.inr ⟨?_, ?_⟩)
      · apply schemeSplit_prefix (t := t)
        rw [htL]
        exact hsplit
      · intro hc
        have h2 := take_two_of_prefix ⟨t, htL⟩ hc
        rw [← hl1L] at h2
        exact hslash h2

theorem extractLinks_mem_aux (cfg : LinkConfig) :
    ∀ (cands : List String) (acc : List String) (u : String),
      u ∈ cands.foldl (fun acc a =>
        let n := normalizeUrl a
        if shouldIncludeUrl cfg n && cfg.robotsAllowed n then
          if n ∈ acc then acc else acc ++ [n]
        else acc) acc →
      u ∈ acc ∨ (∃ a ∈ cands, u = normalizeUrl a ∧
        shouldIncludeUrl cfg u = true ∧ cfg.robotsAllowed u = true) := by
  intro cands
  induction cands with
  | nil =>
      intro acc u h
      exact Or.inl h
  | cons c cs ih =>
      intro acc u h
      rw [List.foldl_cons] at h
      rcases ih _ u h with hacc | ⟨a, ha, rest⟩
      · have hacc2 : u ∈ (if (shouldIncludeUrl cfg (normalizeUrl c) &&
            cfg.robotsAllowed (normalizeUrl c)) = true then
            (if normalizeUrl c ∈ acc then acc else acc ++ [normalizeUrl c])
          else acc) := hacc
        by_cases hcond : (shouldIncludeUrl cfg (normalizeUrl c) &&
            cfg.robotsAllowed (normalizeUrl c)) = true
        · rw [if_pos hcond] at hacc2
          by_cases hin : normalizeUrl c ∈ acc
          · rw [if_pos hin] at hacc2
            exact Or.inl hacc2
          · rw [if_neg hin] at hacc2
            rcases List.mem_append.mp hacc2 with hl | hr
            · exact Or.inl hl
            · have he : u = normalizeUrl c := List.mem_singleton.mp hr
              subst he
              exact Or.inr ⟨c, List.mem_cons_self _ _, rfl,
                (andE hcond).1, (andE hcond).2⟩
        · rw [if_neg hcond] at hacc2
          exact Or.inl hacc2
      · exact Or.inr ⟨a, List.mem_cons_of_mem _ ha, rest⟩

def c8Cfg : LinkConfig :=
  ⟨"example.com", [fun s => s == "http://example.com/admin"], [], fun _ => true⟩

def c8Cands : List String := ["http://example.com/a#frag", "http://other.com/b"]

/-- Claim C8: every URL in the set returned by `extract_links` is the
normalization (fragment, query and params stripped by
`_normalize_url = geturl ∘ strip ∘ urlparse`) of one of the candidate
absolute URLs, its netloc equals the configured base domain, no exclude
pattern matches it, and when at least one include pattern is configured,
some include pattern matches it. -/
theorem extractLinks_spec (cfg : LinkConfig) (candidates : List String)
    (u : String) (h : u ∈ extractLinks cfg candidates) :
    (∃ a ∈ candidates, u = normalizeUrl a) ∧
    (urlparse u).fragment = "" ∧
    (urlparse u).query = "" ∧
    (urlparse u).params = "" ∧
    (urlparse u).netloc = cfg.baseDomain ∧
    (∀ p ∈ cfg.excludePatterns, p u = false) ∧
    (cfg.includePatterns ≠ [] → ∃ p ∈ cfg.includePatterns, p u = true) := by
  rcases extractLinks_mem_aux cfg candidates [] u h with habs | ⟨a, ha, hu, hinc, _⟩
  · exact absurd habs (List.not_mem_nil u)
  · obtain ⟨h1, h2, h3⟩ := normalize_parse a
    rw [← hu] at h1 h2 h3
    refine ⟨⟨a, ha, hu⟩, h1, h2, h3, ?_⟩
    unfold shouldIncludeUrl at hinc
    by_cases hnet : (urlparse u).netloc ≠ cfg.baseDomain
    · rw [if_pos hnet] at hinc
      cases hinc
    · rw [if_neg hnet] at hinc
      by_cases hexc : cfg.excludePatterns.any (fun p => p u) = true
      · rw [if_pos hexc] at hinc
        cases hinc
      · rw [if_neg hexc] at hinc
        have hexcl : ∀ p ∈ cfg.excludePatterns, p u = false := by
          intro p hp
          cases hpv : p u
          · rfl
          · exact absurd (List.any_eq_true.mpr ⟨p, hp, hpv⟩) hexc
        refine ⟨of_not_not hnet, hexcl, ?_⟩
        intro hne
        have hie : cfg.includePatterns.isEmpty = false := by
          cases hi : cfg.includePatterns.isEmpty
          · rfl
          · exact absurd (List.isEmpty_iff.mp hi) hne
        rw [if_pos (by rw [hie]; rfl : (!cfg.includePatterns.isEmpty) = true)] at hinc
        obtain ⟨p, hp, hpv⟩ := List.any_eq_true.mp hinc
        exact ⟨p, hp, hpv⟩

theorem extractLinks_spec_witness :
    (∃ a ∈ c8Cands, "http://example.com/a" = normalizeUrl a) ∧
    (urlparse "http://example.com/a").fragment = "" ∧
    (urlparse "http://example.com/a").query = "" ∧
    (urlparse "http://example.com/a").params = "" ∧
    (urlparse "http://example.com/a").netloc = c8Cfg.baseDomain ∧
    (∀ p ∈ c8Cfg.excludePatterns, p "http://example.com/a" = false) ∧
    (c8Cfg.includePatterns ≠ [] →
      ∃ p ∈ c8Cfg.includePatterns, p "http://example.com/a" = true) :=
  extractLinks_spec c8Cfg c8Cands "http://example.com/a" (by decide)

end EGet
